import Mathlib

/-!
Pitch-contour cleaning and smoothing of HachiTune: `Source/Utils/F0Smoother.cpp`,
`Source/Utils/SinusoidalSmoothing.cpp` and the bridge declared in
`Source/Audio/RealtimePitchProcessor.h`.

Shallow embedding of the five public stages of `F0Smoother`, of the constructor and the
method `forward` of `SinusoidalSmoothing`, and of the bridge state machine.

Modelling conventions.
* A contour (`std::vector<float>`, `std::vector<double>`) is a `List ℚ`; arithmetic is
  exact, so rounding, infinities and NaN are outside the model.  A voiced mask
  (`std::vector<bool>`) is a `List Bool`.
* `int` parameters are `Int`; `size_t` indices are `Nat`.  Contour lengths are assumed to
  fit in `int`, as the casts `static_cast<int>(f0.size())` of the source assume.  The one
  cast in the other direction, `static_cast<size_t>(maxGapFrames)`, is modelled with its
  wrap-around modulo `2^64`, and the `int` products of line 90 of `F0Smoother.cpp` with
  their wrap-around modulo `2^32`.
* A `for` loop is a left fold of its body over the list of the indices it visits; a loop
  that leaves with `break` at the first hit is `List.find?` over the indices in visiting order.
* `std::exp` and `std::sin` are parameters `expf` and `sinf` of the functions that use them;
  a theorem that needs a property of them states it as a hypothesis.
* The method bodies of `RealtimePitchProcessor` are not among the sources; its state machine
  is modelled from the specification, each call and each worker completion being one step.
-/

namespace F0Smoother

/-! ## Definitions -/

/-- The cast `static_cast<size_t>(x)` of an `int` `x` on a 64-bit target. -/
def toSizeT (x : Int) : Nat :=
  (x % (2 : Int) ^ 64).toNat

/-- Inner loop of `medianFilter` (lines 23-32): the positive values `f0[j]` for
`j = start, …, end` that are inside the contour, in visiting order. -/
def windowValues (f0 : List ℚ) (start stop : Int) : List ℚ :=
  (List.range (stop - start + 1).toNat).foldl
    (fun acc (k : Nat) =>
      let j : Int := start + (k : Int)
      if 0 ≤ j ∧ j < (f0.length : Int) ∧ f0.getD j.toNat 0 > 0 then
        acc ++ [f0.getD j.toNat 0]
      else acc)
    []

/-- Lines 34-52 of `medianFilter`: the median of the collected values after sorting, or the
original frame when nothing was collected. -/
def medianOrKeep (values : List ℚ) (orig : ℚ) : ℚ :=
  if values ≠ [] then
    let sorted := values.insertionSort (· ≤ ·)
    let mid := sorted.length / 2
    if sorted.length % 2 = 0 then
      (sorted.getD (mid - 1) 0 + sorted.getD mid 0) / 2
    else
      sorted.getD mid 0
  else
    orig

/-- Source function `F0Smoother::medianFilter` (lines 5-56). -/
def medianFilter (f0 : List ℚ) (windowSize : Int) : List ℚ :=
  if f0 = [] ∨ windowSize < 1 then f0
  else
    let windowSize := if windowSize % 2 = 0 then windowSize + 1 else windowSize
    let halfWindow := windowSize / 2
    (List.range f0.length).foldl
      (fun smoothed i =>
        smoothed.set i
          (medianOrKeep (windowValues f0 ((i : Int) - halfWindow) ((i : Int) + halfWindow))
            (f0.getD i 0)))
      (List.replicate f0.length 0)

/-- Value of an `int` product on the 32-bit `int` of the target: the exact result reduced
modulo `2^32` into `[-2^31, 2^31)`.  The products `j * j` and `halfWindow * halfWindow` of
line 90 are formed in `int` before they are converted to `float`. -/
def wrapInt32 (x : Int) : Int :=
  (x + 2 ^ 31) % 2 ^ 32 - 2 ^ 31

/-- Weight of offset `j` in `smoothTransitions` (line 90):
`std::exp(-0.5f * (j * j) / (halfWindow * halfWindow + 1.0f))` with both products in `int`. -/
def transitionWeight (expf : ℚ → ℚ) (halfWindow j : Int) : ℚ :=
  expf (-(1 / 2) * ((wrapInt32 (j * j) : Int) : ℚ) /
    (((wrapInt32 (halfWindow * halfWindow) : Int) : ℚ) + 1))

/-- Inner loop of `smoothTransitions` (lines 80-94): the pair `(sum, weightSum)` after
visiting the offsets `j = -halfWindow, …, halfWindow`. -/
def weightedSums (expf : ℚ → ℚ) (f0 : List ℚ) (voicedMask : List Bool) (halfWindow : Int)
    (i : Nat) : ℚ × ℚ :=
  (List.range (2 * halfWindow + 1).toNat).foldl
    (fun acc (k : Nat) =>
      let j : Int := -halfWindow + (k : Int)
      let idx : Int := (i : Int) + j
      if 0 ≤ idx ∧ idx < (f0.length : Int) ∧ voicedMask.getD idx.toNat false = true ∧
          f0.getD idx.toNat 0 > 0 then
        let weight := transitionWeight expf halfWindow j
        (acc.1 + f0.getD idx.toNat 0 * weight, acc.2 + weight)
      else acc)
    (0, 0)

/-- Source function `F0Smoother::smoothTransitions` (lines 58-107). -/
def smoothTransitions (expf : ℚ → ℚ) (f0 : List ℚ) (voicedMask : List Bool)
    (windowSize : Int) : List ℚ :=
  if f0 = [] ∨ f0.length ≠ voicedMask.length then f0
  else
    let windowSize := if windowSize < 1 then 1 else windowSize
    let halfWindow := windowSize / 2
    (List.range f0.length).foldl
      (fun smoothed i =>
        if voicedMask.getD i false = false ∨ f0.getD i 0 ≤ 0 then
          smoothed.set i (f0.getD i 0)
        else
          let sums := weightedSums expf f0 voicedMask halfWindow i
          if sums.2 > 0 then smoothed.set i (sums.1 / sums.2)
          else smoothed.set i (f0.getD i 0))
      (List.replicate f0.length 0)

/-- Frame `j` is marked voiced and holds a positive pitch (the test of lines 145 and 155). -/
def voicedPositive (f0 : List ℚ) (voicedMask : List Bool) (j : Nat) : Bool :=
  voicedMask.getD j false && decide (f0.getD j 0 > 0)

/-- Lines 139-150 of `interpolateUnvoiced`: `f0Prev`, found by walking down from
`gapStart - 1` to `0` and stopping at the first voiced positive frame; `0` when there is none. -/
def findPrev (f0 : List ℚ) (voicedMask : List Bool) (gapStart : Nat) : ℚ :=
  match (List.range gapStart).reverse.find? (voicedPositive f0 voicedMask) with
  | some j => f0.getD j 0
  | none => 0

/-- Lines 152-160 of `interpolateUnvoiced`: `f0Next`, found by walking up from `gapEnd` to
the last frame and stopping at the first voiced positive frame; `0` when there is none. -/
def findNext (f0 : List ℚ) (voicedMask : List Bool) (gapEnd : Nat) : ℚ :=
  match (List.range' gapEnd (f0.length - gapEnd)).find? (voicedPositive f0 voicedMask) with
  | some j => f0.getD j 0
  | none => 0

/-- Value written at frame `j` of a gap by line 167-168. -/
def lerp (f0Prev f0Next : ℚ) (gapStart gapSize j : Nat) : ℚ :=
  let t : ℚ := ((j - gapStart : Nat) : ℚ) / (gapSize : ℚ)
  f0Prev * (1 - t) + f0Next * t

/-- Lines 165-169 of `interpolateUnvoiced`: the loop that fills the gap. -/
def fillGap (interpolated : List ℚ) (f0Prev f0Next : ℚ) (gapStart gapEnd : Nat) : List ℚ :=
  (List.range' gapStart (gapEnd - gapStart)).foldl
    (fun acc j => acc.set j (lerp f0Prev f0Next gapStart (gapEnd - gapStart) j))
    interpolated

/-- Loop state of `interpolateUnvoiced`. -/
structure GapState where
  interpolated : List ℚ
  gapStart : Nat
  inGap : Bool
deriving DecidableEq

/-- One iteration of the loop of `interpolateUnvoiced` (lines 124-174) at frame `i`. -/
def gapStep (f0 : List ℚ) (voicedMask : List Bool) (maxGapFrames : Int) (st : GapState)
    (i : Nat) : GapState :=
  if voicedMask.getD i false = false ∧ st.inGap = false then
    { st with gapStart := i, inGap := true }
  else if voicedMask.getD i false = true ∧ st.inGap = true then
    let gapEnd := i
    let gapSize := gapEnd - st.gapStart
    let interpolated :=
      if gapSize ≤ toSizeT maxGapFrames ∧ st.gapStart > 0 then
        let f0Prev := findPrev f0 voicedMask st.gapStart
        let f0Next := findNext f0 voicedMask gapEnd
        if f0Prev > 0 ∧ f0Next > 0 then
          fillGap st.interpolated f0Prev f0Next st.gapStart gapEnd
        else st.interpolated
      else st.interpolated
    { st with interpolated := interpolated, inGap := false }
  else st

/-- The loop of `interpolateUnvoiced` after its first `i` iterations. -/
def gapLoop (f0 : List ℚ) (voicedMask : List Bool) (maxGapFrames : Int) (i : Nat) : GapState :=
  (List.range i).foldl (gapStep f0 voicedMask maxGapFrames)
    { interpolated := f0, gapStart := 0, inGap := false }

/-- Source function `F0Smoother::interpolateUnvoiced` (lines 109-178). -/
def interpolateUnvoiced (f0 : List ℚ) (voicedMask : List Bool) (maxGapFrames : Int) : List ℚ :=
  if f0 = [] ∨ f0.length ≠ voicedMask.length then f0
  else (gapLoop f0 voicedMask maxGapFrames f0.length).interpolated

/-- One iteration of the loop of `removeOutliers` (lines 190-207) at frame `i`. -/
def outlierStep (f0 : List ℚ) (maxJumpRatio : ℚ) (cleaned : List ℚ) (i : Nat) : List ℚ :=
  if f0.getD i 0 > 0 ∧ f0.getD (i - 1) 0 > 0 then
    let ratio := f0.getD i 0 / f0.getD (i - 1) 0
    if ratio > maxJumpRatio ∨ ratio < 1 / maxJumpRatio then
      if i + 1 < f0.length ∧ f0.getD (i + 1) 0 > 0 then
        cleaned.set i ((f0.getD (i - 1) 0 + f0.getD (i + 1) 0) / 2)
      else
        cleaned.set i (f0.getD (i - 1) 0)
    else cleaned
  else cleaned

/-- Source function `F0Smoother::removeOutliers` (lines 180-211). -/
def removeOutliers (f0 : List ℚ) (maxJumpRatio : ℚ) : List ℚ :=
  if f0 = [] then f0
  else (List.range' 1 (f0.length - 1)).foldl (outlierStep f0 maxJumpRatio) f0

/-- Source function `F0Smoother::smoothF0` (lines 213-232). -/
def smoothF0 (expf : ℚ → ℚ) (f0 : List ℚ) (voicedMask : List Bool) : List ℚ :=
  if f0 = [] then f0
  else
    let step1 := removeOutliers f0 (3 / 2)
    let step2 := medianFilter step1 5
    let step3 := smoothTransitions expf step2 voicedMask 3
    let step4 := interpolateUnvoiced step3 voicedMask 5
    step4

/-- One iteration of the scan the specification describes for outlier removal: as
`outlierStep`, with the previous frame read from the partially cleaned sequence. -/
def outlierStepCleaned (f0 : List ℚ) (maxJumpRatio : ℚ) (cleaned : List ℚ) (i : Nat) : List ℚ :=
  if f0.getD i 0 > 0 ∧ cleaned.getD (i - 1) 0 > 0 then
    let ratio := f0.getD i 0 / cleaned.getD (i - 1) 0
    if ratio > maxJumpRatio ∨ ratio < 1 / maxJumpRatio then
      if i + 1 < f0.length ∧ f0.getD (i + 1) 0 > 0 then
        cleaned.set i ((cleaned.getD (i - 1) 0 + f0.getD (i + 1) 0) / 2)
      else
        cleaned.set i (cleaned.getD (i - 1) 0)
    else cleaned
  else cleaned

/-- Outlier removal as the specification words it: a left-to-right scan that compares each
frame with the already cleaned previous frame. -/
def removeOutliersCleanedScan (f0 : List ℚ) (maxJumpRatio : ℚ) : List ℚ :=
  if f0 = [] then f0
  else (List.range' 1 (f0.length - 1)).foldl (outlierStepCleaned f0 maxJumpRatio) f0

/-- Median as the specification words it: the middle one of the sorted values, the mean of
the two middle ones when the count is even. -/
def median (values : List ℚ) : ℚ :=
  let sorted := values.insertionSort (· ≤ ·)
  if sorted.length % 2 = 0 then
    (sorted.getD (sorted.length / 2 - 1) 0 + sorted.getD (sorted.length / 2) 0) / 2
  else
    sorted.getD (sorted.length / 2) 0

/-- The strictly positive values among `f0[max(0,i-h) .. min(n-1,i+h)]`, the window of the
specification clipped to the contour. -/
def positivesInWindow (f0 : List ℚ) (h : Int) (i : Nat) : List ℚ :=
  let lo : Nat := (max 0 ((i : Int) - h)).toNat
  let hi : Nat := (min ((f0.length : Int) - 1) ((i : Int) + h)).toNat
  ((List.range' lo (hi + 1 - lo)).map (fun j => f0.getD j 0)).filter (fun x => decide (0 < x))

/-- Reference value of the median filter at frame `i`, in the words of the specification:
window forced odd, `h = ⌊w′/2⌋`, median of the positive values in the clipped window, or
the input frame when there is none. -/
def medianFilterRef (f0 : List ℚ) (w : Int) (i : Nat) : ℚ :=
  let w' := if w % 2 = 1 then w else w + 1
  let h := w' / 2
  let values := positivesInWindow f0 h i
  if values = [] then f0.getD i 0 else median values

/-- The range `[s, e)` is a maximal run of unvoiced frames of the mask: it is not empty,
every frame of it is unvoiced, the frame before it (if any) is voiced and so is the frame
after it (if any). -/
def IsGap (voicedMask : List Bool) (s e : Nat) : Prop :=
  s < e ∧ e ≤ voicedMask.length ∧
  (∀ j, s ≤ j → j < e → voicedMask.getD j false = false) ∧
  (s = 0 ∨ voicedMask.getD (s - 1) false = true) ∧
  (e = voicedMask.length ∨ voicedMask.getD e false = true)

instance decidableIsGap (voicedMask : List Bool) (s e : Nat) : Decidable (IsGap voicedMask s e) := by
  unfold IsGap
  infer_instance

/-- Value that lines 136-171 of `interpolateUnvoiced` leave at frame `k` of the gap `[s, e)`
when the loop reaches the voiced frame `e` that closes it. -/
def gapValue (f0 : List ℚ) (voicedMask : List Bool) (maxGapFrames : Int) (s e k : Nat) : ℚ :=
  if e - s ≤ toSizeT maxGapFrames ∧ s > 0 ∧
      findPrev f0 voicedMask s > 0 ∧ findNext f0 voicedMask e > 0 then
    lerp (findPrev f0 voicedMask s) (findNext f0 voicedMask e) s (e - s) k
  else f0.getD k 0

/-- Loop invariant of `interpolateUnvoiced` before iteration `i`: an open gap is a maximal
run so far and its frames are untouched, frames not yet reached and voiced frames are
untouched, and every gap closed so far holds its `gapValue`. -/
structure GapInv (f0 : List ℚ) (voicedMask : List Bool) (maxGapFrames : Int) (i : Nat)
    (st : GapState) : Prop where
  len : st.interpolated.length = f0.length
  open_lt : st.inGap = true → st.gapStart < i
  open_unvoiced : st.inGap = true →
    ∀ j, st.gapStart ≤ j → j < i → voicedMask.getD j false = false
  open_start : st.inGap = true →
    st.gapStart = 0 ∨ voicedMask.getD (st.gapStart - 1) false = true
  closed_prev : st.inGap = false → i = 0 ∨ voicedMask.getD (i - 1) false = true
  untouched : ∀ k, (st.inGap = true → st.gapStart ≤ k) → (st.inGap = false → i ≤ k) →
    st.interpolated.getD k 0 = f0.getD k 0
  voiced : ∀ k, voicedMask.getD k false = true → st.interpolated.getD k 0 = f0.getD k 0
  closed : ∀ s e k, s < e → e < i → voicedMask.getD e false = true →
    (∀ j, s ≤ j → j < e → voicedMask.getD j false = false) →
    (s = 0 ∨ voicedMask.getD (s - 1) false = true) → s ≤ k → k < e →
    st.interpolated.getD k 0 = gapValue f0 voicedMask maxGapFrames s e k

/-- Offsets of the smoothing window as the specification words it: the `j ∈ [-h, h]` for which
frame `i + j` is in bounds, marked voiced and positive. -/
def qualifyingOffsets (f0 : List ℚ) (voicedMask : List Bool) (h : Int) (i : Nat) : List Int :=
  ((List.range (2 * h + 1).toNat).map (fun (k : Nat) => (k : Int) - h)).filter
    (fun j => decide (0 ≤ (i : Int) + j ∧ (i : Int) + j < (f0.length : Int) ∧
      voicedMask.getD ((i : Int) + j).toNat false = true ∧
      0 < f0.getD ((i : Int) + j).toNat 0))

/-- Weight of offset `j` as the specification words it: `exp(-0.5 · j² / (h² + 1))`. -/
def gaussWeight (expf : ℚ → ℚ) (h j : Int) : ℚ :=
  expf (-(1 / 2) * (j : ℚ) ^ 2 / ((h : ℚ) ^ 2 + 1))

/-- Reference value of the voiced-aware smoothing at frame `i`, in the words of the
specification: windows below 1 count as 1, `h = ⌊w/2⌋`, unvoiced or non-positive frames pass
through, other frames become the weighted average over the qualifying offsets. -/
def smoothTransitionsRef (expf : ℚ → ℚ) (f0 : List ℚ) (voicedMask : List Bool) (w : Int)
    (i : Nat) : ℚ :=
  let h := max w 1 / 2
  if voicedMask.getD i false = false ∨ f0.getD i 0 ≤ 0 then f0.getD i 0
  else
    let offsets := qualifyingOffsets f0 voicedMask h i
    (offsets.map (fun j => gaussWeight expf h j * f0.getD ((i : Int) + j).toNat 0)).sum /
      (offsets.map (fun j => gaussWeight expf h j)).sum

/-- Minimum of the voiced positive input values in the window around frame `i`, the values
at the qualifying offsets; the fold starts from the centre value, which is one of them when
the frame is voiced and positive. -/
def windowMin (f0 : List ℚ) (voicedMask : List Bool) (h : Int) (i : Nat) : ℚ :=
  ((qualifyingOffsets f0 voicedMask h i).map
    (fun j => f0.getD ((i : Int) + j).toNat 0)).foldl min (f0.getD i 0)

/-- Maximum of the voiced positive input values in the window around frame `i`. -/
def windowMax (f0 : List ℚ) (voicedMask : List Bool) (h : Int) (i : Nat) : ℚ :=
  ((qualifyingOffsets f0 voicedMask h i).map
    (fun j => f0.getD ((i : Int) + j).toNat 0)).foldl max (f0.getD i 0)

end F0Smoother

/-! ## Definitions: sinusoidal smoothing (`Source/Utils/SinusoidalSmoothing.cpp`) -/

/-- Object state of `SinusoidalSmoothing` (`SinusoidalSmoothing.h`, lines 36-37): the clamped
kernel size and the stored weights. -/
structure SinusoidalSmoothing where
  kernel_size : Int
  kernel : List ℚ
deriving DecidableEq

namespace SinusoidalSmoothing

/-- The constant `PI` of line 18 of `SinusoidalSmoothing.cpp`, a decimal just below π. -/
def PI : ℚ := 314159265358979323846 / 100000000000000000000

/-- Loop of lines 16-22 of the constructor on the resized (zero-filled) kernel: the pair
`(kernel, kernel_sum)` after the last iteration.  `sinf` stands for `std::sin`. -/
def fillKernel (sinf : ℚ → ℚ) (kernel_size : Int) : List ℚ × ℚ :=
  let step : ℚ := 1 / ((kernel_size - 1 : Int) : ℚ)
  (List.range kernel_size.toNat).foldl
    (fun (acc : List ℚ × ℚ) (i : Nat) =>
      let t_val : ℚ := (i : ℚ) * step
      let kernel := acc.1.set i (sinf (PI * t_val))
      (kernel, acc.2 + kernel.getD i 0))
    (List.replicate kernel_size.toNat 0, 0)

/-- Constructor `SinusoidalSmoothing::SinusoidalSmoothing` (lines 5-36). -/
def construct (sinf : ℚ → ℚ) (kernel_size : Int) : SinusoidalSmoothing :=
  let kernel_size := max kernel_size 1
  if kernel_size > 1 then
    let filled := fillKernel sinf kernel_size
    let inv_kernel_sum : ℚ := 1 / filled.2
    { kernel_size := kernel_size, kernel := filled.1.map (fun val => val * inv_kernel_sum) }
  else
    { kernel_size := kernel_size, kernel := [1] }

/-- Inner loop of `forward` (lines 75-79): `conv_sum` for output index `i`. -/
def convSum (padded_x kernel : List ℚ) (K : Int) (i : Nat) : ℚ :=
  (List.range K.toNat).foldl
    (fun conv_sum (j : Nat) => conv_sum + padded_x.getD (i + j) 0 * kernel.getD j 0)
    0

/-- Method `SinusoidalSmoothing::forward` (lines 38-84).  The `int` division of line 48 is
the truncating `Int.tdiv`. -/
def forward (s : SinusoidalSmoothing) (x : List ℚ) : List ℚ :=
  if s.kernel_size = 1 then x
  else if x = [] then []
  else
    let K := s.kernel_size
    let L : Int := (x.length : Int)
    let total_pad := K - 1
    let left_pad := total_pad.tdiv 2
    let right_pad := total_pad - left_pad
    let padded_x : List ℚ :=
      (List.range left_pad.toNat).foldl (fun acc _ => acc ++ [x.getD 0 0]) []
    let padded_x := padded_x ++ x
    let padded_x :=
      (List.range right_pad.toNat).foldl (fun acc _ => acc ++ [x.getD (x.length - 1) 0])
        padded_x
    (List.range L.toNat).foldl
      (fun output (i : Nat) => output ++ [convSum padded_x s.kernel K i])
      []

/-- Edge-padded input as the specification words it: `x` preceded by `⌊(K-1)/2⌋` copies of
its first value and followed by `(K-1) - ⌊(K-1)/2⌋` copies of its last value. -/
def edgePadded (K : Int) (x : List ℚ) : List ℚ :=
  List.replicate ((K - 1) / 2).toNat (x.headD 0) ++ x ++
    List.replicate ((K - 1) - (K - 1) / 2).toNat (x.getLastD 0)

/-- Convolution value as the specification words it: `Σ_{j = 0..K-1} w[j] * p[i + j]`. -/
def convolutionRef (w p : List ℚ) (K : Int) (i : Nat) : ℚ :=
  ((List.range K.toNat).map (fun j => w.getD j 0 * p.getD (i + j) 0)).sum

/-- Unnormalised weight of index `i` as the specification words it, `sin(π · i / (K - 1))`,
with the constant `PI` of the source for π. -/
def rawWeight (sinf : ℚ → ℚ) (K : Int) (i : Nat) : ℚ :=
  sinf (PI * (i : ℚ) / ((K : ℚ) - 1))

end SinusoidalSmoothing

/-! ## Definitions: real-time bridge (`Source/Audio/RealtimePitchProcessor.h`) -/

/-- Modelled from the spec: state of the bridge `RealtimePitchProcessor`, whose header
`Source/Audio/RealtimePitchProcessor.h` is in the sources and whose method bodies are not.
The fields are those of the header (lines 44-52): the non-owning project and vocoder
handles, the sample rate, the corrected buffer, the flags `ready`, `computing` and
`cancelCompute`, and the playback cursor.  A buffer is a list of samples. -/
structure RealtimePitchProcessor where
  project : Option Nat
  vocoder : Option Nat
  sampleRate : ℚ
  processedBuffer : List ℚ
  ready : Bool
  computing : Bool
  cancelCompute : Bool
  position : ℚ
deriving DecidableEq

namespace RealtimePitchProcessor

/-- Modelled from the spec: the bridge after construction, state `Idle` with no corrected
buffer and no computation running; the values are the member initialisers of the header. -/
def initial : RealtimePitchProcessor :=
  { project := none, vocoder := none, sampleRate := 44100, processedBuffer := [],
    ready := false, computing := false, cancelCompute := false, position := 0 }

/-- Header line 36: `isReady` reads the flag `ready`. -/
def isReady (s : RealtimePitchProcessor) : Bool :=
  s.ready

/-- Header line 37: `getPosition` reads the cursor. -/
def getPosition (s : RealtimePitchProcessor) : ℚ :=
  s.position

/-- Header line 38: `setPosition` stores the cursor. -/
def setPosition (s : RealtimePitchProcessor) (positionSeconds : ℚ) : RealtimePitchProcessor :=
  { s with position := positionSeconds }

/-- Modelled from the spec: `setProject` updates the non-owning association used by the next
computation and does not trigger a recomputation. -/
def setProject (s : RealtimePitchProcessor) (proj : Option Nat) : RealtimePitchProcessor :=
  { s with project := proj }

/-- Modelled from the spec: `setVocoder` updates the non-owning association used by the next
computation and does not trigger a recomputation. -/
def setVocoder (s : RealtimePitchProcessor) (voc : Option Nat) : RealtimePitchProcessor :=
  { s with vocoder := voc }

/-- Modelled from the spec: `prepareToPlay` takes the new sample rate; the corrected buffer
is replaced by the worker only. -/
def prepareToPlay (s : RealtimePitchProcessor) (sampleRate : ℚ) (_samplesPerBlock : Int) :
    RealtimePitchProcessor :=
  { s with sampleRate := sampleRate }

/-- Modelled from the spec: `startComputation` takes the computation-ownership flag and
clears the cancellation signal for the worker it starts. -/
def startComputation (s : RealtimePitchProcessor) : RealtimePitchProcessor :=
  { s with computing := true, cancelCompute := false }

/-- Modelled from the spec: `invalidate` while a computation is in flight only raises the
cancellation signal observed by the running worker; while idle it starts a computation. -/
def invalidate (s : RealtimePitchProcessor) : RealtimePitchProcessor :=
  if s.computing then { s with cancelCompute := true } else startComputation s

/-- Modelled from the spec: what the synthesis engine hands back to the worker, a fully
rendered corrected buffer or a failure. -/
inductive RenderResult where
  | rendered (buffer : List ℚ)
  | failed
deriving DecidableEq

/-- Modelled from the spec: the end of `computeInBackground` (steps 3 to 5 of the background
algorithm).  A cancelled worker publishes nothing and the computation restarts for the
invalidation that cancelled it; a successful one publishes its buffer whole and sets the
ready flag; a failed one leaves the previously published state. -/
def computeInBackground (s : RealtimePitchProcessor) (result : RenderResult) :
    RealtimePitchProcessor :=
  if s.computing = false then s
  else if s.cancelCompute then startComputation s
  else
    match result with
    | .rendered buffer => { s with processedBuffer := buffer, ready := true, computing := false }
    | .failed => { s with computing := false }

/-- Modelled from the spec: `processBlock`.  With a published buffer the output is the
portion of it selected by the host-supplied or stored position and the result is `true`;
without one the input is copied to the output and the result is `false`.  How the portion
is cut out of the buffer is the parameter `slice`. -/
def processBlock (slice : List ℚ → ℚ → ℚ → Nat → List ℚ) (s : RealtimePitchProcessor)
    (input : List ℚ) (positionInfo : Option ℚ) : List ℚ × Bool :=
  if s.ready then
    (slice s.processedBuffer (positionInfo.getD s.position) s.sampleRate input.length, true)
  else (input, false)

/-- Modelled from the spec: the calls and worker completions that change the bridge. -/
inductive Event where
  | setProject (proj : Option Nat)
  | setVocoder (voc : Option Nat)
  | prepareToPlay (sampleRate : ℚ) (samplesPerBlock : Int)
  | invalidate
  | setPosition (positionSeconds : ℚ)
  | workerDone (result : RenderResult)
deriving DecidableEq

/-- Modelled from the spec: effect of one event on the bridge. -/
def step (s : RealtimePitchProcessor) : Event → RealtimePitchProcessor
  | .setProject proj => s.setProject proj
  | .setVocoder voc => s.setVocoder voc
  | .prepareToPlay sampleRate samplesPerBlock => s.prepareToPlay sampleRate samplesPerBlock
  | .invalidate => s.invalidate
  | .setPosition positionSeconds => s.setPosition positionSeconds
  | .workerDone result => s.computeInBackground result

/-- Modelled from the spec: the bridge state reached from `s` by a sequence of events. -/
def run (s : RealtimePitchProcessor) (events : List Event) : RealtimePitchProcessor :=
  events.foldl step s

/-- Modelled from the spec: the event publishes a buffer when it happens in state `s`, that
is, it is the successful completion of a worker that is in flight and not cancelled. -/
def publishes (s : RealtimePitchProcessor) : Event → Bool
  | .workerDone (.rendered _) => s.computing && !s.cancelCompute
  | _ => false

/-- Modelled from the spec: some event of the sequence, started in state `s`, publishes a
buffer. -/
def everPublished (s : RealtimePitchProcessor) : List Event → Bool
  | [] => false
  | e :: rest => publishes s e || everPublished (step s e) rest

end RealtimePitchProcessor

namespace F0Smoother

/-! ## Loop lemmas -/

theorem length_foldl_of_step {α : Type} (step : List ℚ → α → List ℚ)
    (hstep : ∀ acc a, (step acc a).length = acc.length) (xs : List α) (init : List ℚ) :
    (xs.foldl step init).length = init.length := by
  induction xs generalizing init with
  | nil => rfl
  | cons x xs ih => rw [List.foldl_cons, ih, hstep]

theorem length_medianFilter (f0 : List ℚ) (windowSize : Int) :
    (medianFilter f0 windowSize).length = f0.length := by
  unfold medianFilter
  by_cases h : f0 = [] ∨ windowSize < 1
  · rw [if_pos h]
  · rw [if_neg h, length_foldl_of_step _ (fun acc a => by simp)]
    simp

theorem length_smoothTransitions (expf : ℚ → ℚ) (f0 : List ℚ) (voicedMask : List Bool)
    (windowSize : Int) :
    (smoothTransitions expf f0 voicedMask windowSize).length = f0.length := by
  unfold smoothTransitions
  by_cases h : f0 = [] ∨ f0.length ≠ voicedMask.length
  · rw [if_pos h]
  · rw [if_neg h, length_foldl_of_step _ (fun acc a => by dsimp only; split_ifs <;> simp)]
    simp

theorem length_fillGap (interpolated : List ℚ) (f0Prev f0Next : ℚ) (gapStart gapEnd : Nat) :
    (fillGap interpolated f0Prev f0Next gapStart gapEnd).length = interpolated.length := by
  unfold fillGap
  exact length_foldl_of_step _ (fun acc a => by simp) _ _

theorem length_gapStep (f0 : List ℚ) (voicedMask : List Bool) (maxGapFrames : Int)
    (st : GapState) (i : Nat) :
    (gapStep f0 voicedMask maxGapFrames st i).interpolated.length = st.interpolated.length := by
  unfold gapStep
  dsimp only
  split_ifs <;> simp [length_fillGap]

theorem length_gapLoop (f0 : List ℚ) (voicedMask : List Bool) (maxGapFrames : Int) (i : Nat) :
    (gapLoop f0 voicedMask maxGapFrames i).interpolated.length = f0.length := by
  induction i with
  | zero => rfl
  | succ i ih =>
    unfold gapLoop at ih ⊢
    rw [List.range_succ, List.foldl_append, List.foldl_cons, List.foldl_nil, length_gapStep, ih]

theorem length_interpolateUnvoiced (f0 : List ℚ) (voicedMask : List Bool) (maxGapFrames : Int) :
    (interpolateUnvoiced f0 voicedMask maxGapFrames).length = f0.length := by
  unfold interpolateUnvoiced
  split_ifs with h
  · rfl
  · exact length_gapLoop _ _ _ _

theorem length_outlierStep (f0 : List ℚ) (maxJumpRatio : ℚ) (cleaned : List ℚ) (i : Nat) :
    (outlierStep f0 maxJumpRatio cleaned i).length = cleaned.length := by
  unfold outlierStep
  dsimp only
  split_ifs <;> simp

theorem length_removeOutliers (f0 : List ℚ) (maxJumpRatio : ℚ) :
    (removeOutliers f0 maxJumpRatio).length = f0.length := by
  unfold removeOutliers
  split_ifs with h
  · rfl
  · exact length_foldl_of_step _ (length_outlierStep f0 maxJumpRatio) _ _

theorem length_smoothF0 (expf : ℚ → ℚ) (f0 : List ℚ) (voicedMask : List Bool) :
    (smoothF0 expf f0 voicedMask).length = f0.length := by
  unfold smoothF0
  split_ifs with h
  · rfl
  · simp only [length_interpolateUnvoiced, length_smoothTransitions, length_medianFilter,
      length_removeOutliers]

/-! ## Length, pipeline shape and malformed input -/

/-- C1: every cleaning stage preserves the contour length.  For every contour, every mask
(of any length) and every parameter value, `medianFilter`, `smoothTransitions`,
`interpolateUnvoiced`, `removeOutliers` and `smoothF0` return exactly as many frames as
their input has. -/
theorem stages_preserve_length (expf : ℚ → ℚ) (f0 : List ℚ) (voicedMask : List Bool)
    (windowSize maxGapFrames : Int) (maxJumpRatio : ℚ) :
    (medianFilter f0 windowSize).length = f0.length ∧
    (smoothTransitions expf f0 voicedMask windowSize).length = f0.length ∧
    (interpolateUnvoiced f0 voicedMask maxGapFrames).length = f0.length ∧
    (removeOutliers f0 maxJumpRatio).length = f0.length ∧
    (smoothF0 expf f0 voicedMask).length = f0.length :=
  ⟨length_medianFilter _ _, length_smoothTransitions _ _ _ _,
    length_interpolateUnvoiced _ _ _, length_removeOutliers _ _, length_smoothF0 _ _ _⟩

/-- C2: the fixed pipeline is the four stages in order with the hard-coded constants:
`smoothF0 f0 m` is `interpolateUnvoiced (smoothTransitions (medianFilter (removeOutliers f0
1.5) 5) m 3) m 5`, for every contour and mask (the empty contour included). -/
theorem smoothF0_eq_pipeline (expf : ℚ → ℚ) (f0 : List ℚ) (voicedMask : List Bool) :
    smoothF0 expf f0 voicedMask =
      interpolateUnvoiced
        (smoothTransitions expf (medianFilter (removeOutliers f0 (3 / 2)) 5) voicedMask 3)
        voicedMask 5 := by
  unfold smoothF0
  split_ifs with h
  · subst h
    simp [removeOutliers, medianFilter, smoothTransitions, interpolateUnvoiced]
  · rfl

/-- C3 (evaluation of the code where the claim fails): on the five-frame contour
`[100, 100, 100, 260, 101]` with the empty mask, whose length differs from the contour's,
`smoothF0` returns `[100, 100, 100, 100.25, 100.5]`, the output of the two mask-free
stages, and not its input. -/
theorem smoothF0_mismatched_mask_rewrites (expf : ℚ → ℚ) :
    smoothF0 expf [100, 100, 100, 260, 101] [] = [100, 100, 100, 401 / 4, 201 / 2] ∧
    smoothF0 expf [100, 100, 100, 260, 101] [] ≠ [100, 100, 100, 260, 101] := by
  have h : smoothF0 expf [100, 100, 100, 260, 101] [] = [100, 100, 100, 401 / 4, 201 / 2] := by
    simp [smoothF0, interpolateUnvoiced, smoothTransitions, length_medianFilter,
      length_removeOutliers]
    simp [removeOutliers, outlierStep, List.range']
    norm_num
    simp [medianFilter, medianOrKeep, windowValues, List.range_succ]
    norm_num
  refine ⟨h, ?_⟩
  rw [h]
  norm_num

/-- C4: malformed input to the individual stages returns the input unchanged.  With a mask
whose length differs from the contour's, `smoothTransitions` and `interpolateUnvoiced`
return the contour itself whatever the window or gap parameter; and `medianFilter`,
`removeOutliers`, `smoothTransitions` and `interpolateUnvoiced` map the empty contour to
the empty contour. -/
theorem stages_malformed_input (expf : ℚ → ℚ) (f0 : List ℚ) (voicedMask : List Bool)
    (windowSize maxGapFrames medianWindow : Int) (maxJumpRatio : ℚ)
    (h : voicedMask.length ≠ f0.length) :
    smoothTransitions expf f0 voicedMask windowSize = f0 ∧
    interpolateUnvoiced f0 voicedMask maxGapFrames = f0 ∧
    medianFilter [] medianWindow = [] ∧
    removeOutliers [] maxJumpRatio = [] ∧
    (∀ m : List Bool, smoothTransitions expf [] m windowSize = []) ∧
    (∀ m : List Bool, interpolateUnvoiced [] m maxGapFrames = []) := by
  have h2 : f0.length ≠ voicedMask.length := fun e => h e.symm
  refine ⟨?_, ?_, ?_, ?_, ?_, ?_⟩
  · unfold smoothTransitions; rw [if_pos (Or.inr h2)]
  · unfold interpolateUnvoiced; rw [if_pos (Or.inr h2)]
  · simp [medianFilter]
  · simp [removeOutliers]
  · intro m; simp [smoothTransitions]
  · intro m; simp [interpolateUnvoiced]

/-- Witness for C4: a two-frame contour with a one-entry mask. -/
theorem stages_malformed_input_witness :
    [true].length ≠ [(100 : ℚ), 200].length ∧
    smoothTransitions (fun _ => 1) [100, 200] [true] 3 = [100, 200] ∧
    interpolateUnvoiced [100, 200] [true] 5 = [100, 200] ∧
    medianFilter [] 5 = [] ∧
    removeOutliers [] (3 / 2) = [] ∧
    (∀ m : List Bool, smoothTransitions (fun _ => 1) [] m 3 = []) ∧
    (∀ m : List Bool, interpolateUnvoiced [] m 5 = []) :=
  ⟨by decide, stages_malformed_input (fun _ => 1) [100, 200] [true] 3 5 5 (3 / 2) (by decide)⟩

/-! ## Outlier removal -/

theorem getD_set_ite (l : List ℚ) (i j : Nat) (a : ℚ) :
    (l.set i a).getD j 0 = if i = j ∧ i < l.length then a else l.getD j 0 := by
  simp only [List.getD_eq_getElem?_getD, List.getElem?_set]
  by_cases hij : i = j
  · subst hij
    by_cases hl : i < l.length
    · simp [hl]
    · simp [hl, List.getElem?_eq_none (Nat.le_of_not_lt hl)]
  · simp [hij]

theorem getD_foldl_condSet (c : Nat → Prop) [DecidablePred c] (v : Nat → ℚ) (is : List Nat)
    (init : List ℚ) (j : Nat) :
    (is.foldl (fun acc i => if c i then acc.set i (v i) else acc) init).getD j 0 =
      if j ∈ is ∧ c j ∧ j < init.length then v j else init.getD j 0 := by
  induction is generalizing init with
  | nil => simp
  | cons i rest ih =>
    rw [List.foldl_cons, ih]
    by_cases hc : c i
    · simp only [hc, if_true, List.length_set, getD_set_ite, List.mem_cons]
      by_cases hij : i = j
      · subst hij
        by_cases hl : i < init.length
        · simp [hc, hl]
        · have : init.getD i 0 = 0 := by
            simp [List.getD_eq_getElem?_getD, List.getElem?_eq_none (Nat.le_of_not_lt hl)]
          simp [hl, this]
      · have hji : ¬ j = i := fun e => hij e.symm
        simp [hij, hji]
    · simp only [hc, if_false, List.mem_cons]
      by_cases hij : j = i
      · subst hij
        simp [hc]
      · simp [hij]

theorem outlierStep_eq (f0 : List ℚ) (maxJumpRatio : ℚ) :
    outlierStep f0 maxJumpRatio = fun cleaned i =>
      if f0.getD i 0 > 0 ∧ f0.getD (i - 1) 0 > 0 ∧
          (f0.getD i 0 / f0.getD (i - 1) 0 > maxJumpRatio ∨
            f0.getD i 0 / f0.getD (i - 1) 0 < 1 / maxJumpRatio) then
        cleaned.set i
          (if i + 1 < f0.length ∧ f0.getD (i + 1) 0 > 0 then
            (f0.getD (i - 1) 0 + f0.getD (i + 1) 0) / 2
          else f0.getD (i - 1) 0)
      else cleaned := by
  funext cleaned i
  unfold outlierStep
  dsimp only
  split_ifs <;> first | rfl | (exfalso; tauto)

theorem getD_removeOutliers (f0 : List ℚ) (maxJumpRatio : ℚ) (i : Nat) :
    (removeOutliers f0 maxJumpRatio).getD i 0 =
      if 1 ≤ i ∧ i < f0.length ∧ f0.getD i 0 > 0 ∧ f0.getD (i - 1) 0 > 0 ∧
          (f0.getD i 0 / f0.getD (i - 1) 0 > maxJumpRatio ∨
            f0.getD i 0 / f0.getD (i - 1) 0 < 1 / maxJumpRatio) then
        if i + 1 < f0.length ∧ f0.getD (i + 1) 0 > 0 then
          (f0.getD (i - 1) 0 + f0.getD (i + 1) 0) / 2
        else f0.getD (i - 1) 0
      else f0.getD i 0 := by
  unfold removeOutliers
  by_cases h : f0 = []
  · subst h; simp
  · rw [if_neg h, outlierStep_eq, getD_foldl_condSet]
    have hlen : 0 < f0.length := List.length_pos.mpr h
    have hmem : i ∈ List.range' 1 (f0.length - 1) ↔ 1 ≤ i ∧ i < f0.length := by
      rw [List.mem_range'_1]; omega
    simp only [hmem]
    apply if_congr _ rfl rfl
    tauto

/-- C5: outlier replacement rule of `removeOutliers f0 r`.  At a frame `i ≥ 1` with
`f0[i] > 0`, `f0[i-1] > 0` and `f0[i] / f0[i-1]` above `r` or below `1 / r`, the output is
`(f0[i-1] + f0[i+1]) / 2` when frame `i+1` exists and is positive, and `f0[i-1]`
otherwise; every other frame (frame `0`, and frames where `f0[i]` or `f0[i-1]` is not
positive, or the ratio is within bounds) is returned unchanged. -/
theorem removeOutliers_rule (f0 : List ℚ) (maxJumpRatio : ℚ) (i : Nat) (hi : i < f0.length) :
    (removeOutliers f0 maxJumpRatio).getD i 0 =
      if 1 ≤ i ∧ f0.getD i 0 > 0 ∧ f0.getD (i - 1) 0 > 0 ∧
          (f0.getD i 0 / f0.getD (i - 1) 0 > maxJumpRatio ∨
            f0.getD i 0 / f0.getD (i - 1) 0 < 1 / maxJumpRatio) then
        if i + 1 < f0.length ∧ f0.getD (i + 1) 0 > 0 then
          (f0.getD (i - 1) 0 + f0.getD (i + 1) 0) / 2
        else f0.getD (i - 1) 0
      else f0.getD i 0 := by
  rw [getD_removeOutliers]
  apply if_congr _ rfl rfl
  tauto

/-- Witness for C5: `[100, 100, 100, 260, 101]` with ratio `1.5` gives `100.5` at index 3. -/
theorem removeOutliers_rule_witness :
    3 < [(100 : ℚ), 100, 100, 260, 101].length ∧
    (removeOutliers [100, 100, 100, 260, 101] (3 / 2)).getD 3 0 = 201 / 2 := by
  refine ⟨by decide, ?_⟩
  rw [removeOutliers_rule [100, 100, 100, 260, 101] (3 / 2) 3 (by decide)]
  norm_num

/-- C6: evaluation of the code and of the scan the claim describes on
`[100, 100, 100, 260, 101]` with ratio `1.5`.  The code returns `260` at the last frame:
frame 4 is compared with the input value `260` of frame 3, found to be a jump, and
overwritten with that input value.  The left-to-right scan over the partially cleaned
sequence compares frame 4 with the cleaned `100.5` and keeps `101`.  The two results
differ. -/
theorem removeOutliers_ne_cleanedScan :
    removeOutliers [100, 100, 100, 260, 101] (3 / 2) = [100, 100, 100, 201 / 2, 260] ∧
    removeOutliersCleanedScan [100, 100, 100, 260, 101] (3 / 2) =
      [100, 100, 100, 201 / 2, 101] ∧
    removeOutliers [100, 100, 100, 260, 101] (3 / 2) ≠
      removeOutliersCleanedScan [100, 100, 100, 260, 101] (3 / 2) := by
  have h1 : removeOutliers [100, 100, 100, 260, 101] (3 / 2) =
      [100, 100, 100, 201 / 2, 260] := by
    simp [removeOutliers, outlierStep, List.range']
    norm_num
  have h2 : removeOutliersCleanedScan [100, 100, 100, 260, 101] (3 / 2) =
      [100, 100, 100, 201 / 2, 101] := by
    simp [removeOutliersCleanedScan, outlierStepCleaned, List.range']
    norm_num
  refine ⟨h1, h2, ?_⟩
  rw [h1, h2]
  norm_num

/-! ## Median filter -/

theorem getD_foldl_set (v : Nat → ℚ) (is : List Nat) (init : List ℚ) (j : Nat) :
    (is.foldl (fun acc i => acc.set i (v i)) init).getD j 0 =
      if j ∈ is ∧ j < init.length then v j else init.getD j 0 := by
  simpa using getD_foldl_condSet (fun _ => True) v is init j

theorem foldl_append_if (p : Nat → Prop) [DecidablePred p] (g : Nat → ℚ) (l : List Nat)
    (init : List ℚ) :
    l.foldl (fun acc k => if p k then acc ++ [g k] else acc) init =
      init ++ (l.filter (fun k => decide (p k))).map g := by
  induction l generalizing init with
  | nil => simp
  | cons k rest ih =>
    rw [List.foldl_cons, ih]
    by_cases hp : p k
    · simp [hp, List.filter_cons]
    · simp [hp, List.filter_cons]

theorem windowValues_eq (f0 : List ℚ) (h : Int) (i : Nat) (hh : 0 ≤ h) (hi : i < f0.length) :
    windowValues f0 ((i : Int) - h) ((i : Int) + h) = positivesInWindow f0 h i := by
  unfold windowValues positivesInWindow
  dsimp only
  rw [foldl_append_if, List.nil_append]
  obtain ⟨a, ha⟩ : ∃ a : Nat, a = (-((i : Int) - h)).toNat := ⟨_, rfl⟩
  obtain ⟨lo, hlo⟩ : ∃ lo : Nat, lo = (max 0 ((i : Int) - h)).toNat := ⟨_, rfl⟩
  obtain ⟨hi', hhi⟩ : ∃ x : Nat, x = (min ((f0.length : Int) - 1) ((i : Int) + h)).toNat :=
    ⟨_, rfl⟩
  obtain ⟨m, hm⟩ : ∃ m : Nat, m = ((i : Int) + h - ((i : Int) - h) + 1).toNat := ⟨_, rfl⟩
  rw [← hlo, ← hhi, ← hm]
  have hsplit : List.range m =
      List.range' 0 a ++ (List.range' a (hi' + 1 - lo) ++
        List.range' (a + (hi' + 1 - lo)) (m - a - (hi' + 1 - lo))) := by
    have e := List.range'_append_1 0 a (m - a - (hi' + 1 - lo) + (hi' + 1 - lo))
    rw [Nat.zero_add] at e
    rw [List.range_eq_range', List.range'_append_1, e]
    congr 1
    omega
  rw [hsplit, List.filter_append, List.filter_append, List.map_append, List.map_append]
  have h1 : (List.range' 0 a).filter (fun (k : Nat) => decide (0 ≤ (i : Int) - h + (k : Int) ∧
      (i : Int) - h + (k : Int) < (f0.length : Int) ∧
      f0.getD ((i : Int) - h + (k : Int)).toNat 0 > 0)) = [] := by
    rw [List.filter_eq_nil_iff]
    intro k hk
    rw [List.mem_range'_1] at hk
    simp only [decide_eq_true_eq, not_and]
    intro h0
    omega
  have h3 : (List.range' (a + (hi' + 1 - lo)) (m - a - (hi' + 1 - lo))).filter
      (fun (k : Nat) => decide (0 ≤ (i : Int) - h + (k : Int) ∧
      (i : Int) - h + (k : Int) < (f0.length : Int) ∧
      f0.getD ((i : Int) - h + (k : Int)).toNat 0 > 0)) = [] := by
    rw [List.filter_eq_nil_iff]
    intro k hk
    rw [List.mem_range'_1] at hk
    simp only [decide_eq_true_eq, not_and]
    intro h0 h1
    omega
  rw [h1, h3, List.map_nil, List.append_nil, List.nil_append]
  rw [List.range'_eq_map_range a, List.range'_eq_map_range lo, List.map_map, List.filter_map,
    List.filter_map, List.map_map]
  have hidx : ∀ k ∈ List.range (hi' + 1 - lo),
      ((i : Int) - h + ((a + k : Nat) : Int)).toNat = lo + k := by
    intro k hk
    rw [List.mem_range] at hk
    omega
  have hp : (List.range (hi' + 1 - lo)).filter
        ((fun (k : Nat) => decide (0 ≤ (i : Int) - h + (k : Int) ∧
          (i : Int) - h + (k : Int) < (f0.length : Int) ∧
          f0.getD ((i : Int) - h + (k : Int)).toNat 0 > 0)) ∘ fun x => a + x) =
      (List.range (hi' + 1 - lo)).filter
        ((fun x => decide (0 < x)) ∘ ((fun j => f0.getD j 0) ∘ fun x => lo + x)) := by
    apply List.filter_congr
    intro k hk
    have e := hidx k hk
    rw [List.mem_range] at hk
    simp only [Function.comp_apply, e]
    have hb : 0 ≤ (i : Int) - h + ((a + k : Nat) : Int) ∧
        (i : Int) - h + ((a + k : Nat) : Int) < (f0.length : Int) := by omega
    obtain ⟨hb1, hb2⟩ := hb
    push_cast at hb1 hb2
    simp [hb1, hb2]
  rw [hp]
  apply List.map_congr_left
  intro k hk
  rw [List.mem_filter] at hk
  simp only [Function.comp_apply, hidx k hk.1]

/-- C7: `medianFilter` equals its reference definition.  For a non-empty contour and a
window size `w ≥ 1`, with `w' = w` if `w` is odd and `w + 1` otherwise and `h = ⌊w'/2⌋`,
the output at each frame `i` is the median (mean of the two middle values when the count is
even) of the strictly positive values among `f0[max(0,i-h) .. min(n-1,i+h)]`, and `f0[i]`
itself when that window holds no positive value. -/
theorem medianFilter_eq_ref (f0 : List ℚ) (w : Int) (i : Nat) (hne : f0 ≠ []) (hw : 1 ≤ w)
    (hi : i < f0.length) :
    (medianFilter f0 w).getD i 0 = medianFilterRef f0 w i := by
  unfold medianFilter medianFilterRef
  have hguard : ¬ (f0 = [] ∨ w < 1) := by
    intro hc
    rcases hc with hc | hc
    · exact hne hc
    · omega
  rw [if_neg hguard]
  dsimp only
  rw [getD_foldl_set]
  have hmem : i ∈ List.range f0.length ∧ i < (List.replicate f0.length (0 : ℚ)).length := by
    simp [hi]
  rw [if_pos hmem]
  have hw' : (if w % 2 = 0 then w + 1 else w) = (if w % 2 = 1 then w else w + 1) := by
    split_ifs <;> omega
  rw [hw']
  have hh : 0 ≤ (if w % 2 = 1 then w else w + 1) / 2 := by
    split_ifs <;> omega
  rw [windowValues_eq f0 _ i hh hi]
  unfold medianOrKeep median
  dsimp only
  by_cases hv : positivesInWindow f0 ((if w % 2 = 1 then w else w + 1) / 2) i = []
  · simp [hv]
  · simp [hv]

/-- Witness for C7: `[100, 0, 102, 500, 101]` with window 5 gives `102`, not `500`, at
index 3. -/
theorem medianFilter_eq_ref_witness :
    (medianFilter [100, 0, 102, 500, 101] 5).getD 3 0 = 102 ∧
    medianFilterRef [100, 0, 102, 500, 101] 5 3 = 102 := by
  have h := medianFilter_eq_ref [100, 0, 102, 500, 101] 5 3 (by simp) (by decide) (by decide)
  have h2 : medianFilterRef [100, 0, 102, 500, 101] 5 3 = 102 := by
    simp [medianFilterRef, positivesInWindow, median, List.range']
    norm_num
  exact ⟨h.trans h2, h2⟩

/-! ## Gap interpolation -/

theorem getD_fillGap (interpolated : List ℚ) (f0Prev f0Next : ℚ) (gapStart gapEnd k : Nat) :
    (fillGap interpolated f0Prev f0Next gapStart gapEnd).getD k 0 =
      if gapStart ≤ k ∧ k < gapEnd ∧ k < interpolated.length then
        lerp f0Prev f0Next gapStart (gapEnd - gapStart) k
      else interpolated.getD k 0 := by
  unfold fillGap
  rw [getD_foldl_set]
  apply if_congr _ rfl rfl
  rw [List.mem_range'_1]
  omega

theorem gapLoop_succ (f0 : List ℚ) (voicedMask : List Bool) (maxGapFrames : Int) (i : Nat) :
    gapLoop f0 voicedMask maxGapFrames (i + 1) =
      gapStep f0 voicedMask maxGapFrames (gapLoop f0 voicedMask maxGapFrames i) i := by
  unfold gapLoop
  rw [List.range_succ, List.foldl_append, List.foldl_cons, List.foldl_nil]

theorem gapInv_zero (f0 : List ℚ) (voicedMask : List Bool) (maxGapFrames : Int) :
    GapInv f0 voicedMask maxGapFrames 0 (gapLoop f0 voicedMask maxGapFrames 0) := by
  refine ⟨rfl, ?_, ?_, ?_, ?_, ?_, ?_, ?_⟩ <;> simp [gapLoop]

theorem gapStep_open (f0 : List ℚ) (voicedMask : List Bool) (maxGapFrames : Int) (i : Nat)
    (interp : List ℚ) (gs : Nat) (hm : voicedMask.getD i false = false) :
    gapStep f0 voicedMask maxGapFrames ⟨interp, gs, false⟩ i = ⟨interp, i, true⟩ := by
  unfold gapStep
  dsimp only
  rw [if_pos ⟨hm, rfl⟩]

theorem gapStep_continue (f0 : List ℚ) (voicedMask : List Bool) (maxGapFrames : Int) (i : Nat)
    (interp : List ℚ) (gs : Nat) (hm : voicedMask.getD i false = false) :
    gapStep f0 voicedMask maxGapFrames ⟨interp, gs, true⟩ i = ⟨interp, gs, true⟩ := by
  unfold gapStep
  dsimp only
  rw [if_neg (fun hc => by cases hc.2), if_neg (fun hc => by rw [hm] at hc; cases hc.1)]

theorem gapStep_voiced (f0 : List ℚ) (voicedMask : List Bool) (maxGapFrames : Int) (i : Nat)
    (interp : List ℚ) (gs : Nat) (hm : voicedMask.getD i false = true) :
    gapStep f0 voicedMask maxGapFrames ⟨interp, gs, false⟩ i = ⟨interp, gs, false⟩ := by
  unfold gapStep
  dsimp only
  rw [if_neg (fun hc => by rw [hm] at hc; cases hc.1), if_neg (fun hc => by cases hc.2)]

theorem gapStep_close (f0 : List ℚ) (voicedMask : List Bool) (maxGapFrames : Int) (i : Nat)
    (interp : List ℚ) (gs : Nat) (hm : voicedMask.getD i false = true) :
    gapStep f0 voicedMask maxGapFrames ⟨interp, gs, true⟩ i =
      ⟨if i - gs ≤ toSizeT maxGapFrames ∧ gs > 0 then
          if findPrev f0 voicedMask gs > 0 ∧ findNext f0 voicedMask i > 0 then
            fillGap interp (findPrev f0 voicedMask gs) (findNext f0 voicedMask i) gs i
          else interp
        else interp, gs, false⟩ := by
  unfold gapStep
  dsimp only
  rw [if_neg (fun hc => by cases hc.2), if_pos ⟨hm, rfl⟩]

theorem gapInv_step (f0 : List ℚ) (voicedMask : List Bool) (maxGapFrames : Int) (i : Nat)
    (st : GapState) (hi : i < f0.length) (h : GapInv f0 voicedMask maxGapFrames i st) :
    GapInv f0 voicedMask maxGapFrames (i + 1) (gapStep f0 voicedMask maxGapFrames st i) := by
  obtain ⟨interp, gs, ig⟩ := st
  obtain ⟨hlen, holt, hounv, hostart, hcprev, hunt, hvoi, hclo⟩ := h
  dsimp only at hlen holt hounv hostart hcprev hunt hvoi hclo
  cases hm : voicedMask.getD i false <;> cases ig
  · -- unvoiced frame, not in a gap: a gap starts
    rw [gapStep_open _ _ _ _ _ _ hm]
    refine ⟨?_, ?_, ?_, ?_, ?_, ?_, ?_, ?_⟩ <;> dsimp only
    · exact hlen
    · intro _; omega
    · intro _ j hj1 hj2
      have : j = i := by omega
      rw [this]; exact hm
    · intro _; exact hcprev rfl
    · intro hc; cases hc
    · intro k hk1 _
      exact hunt k (fun hc => by cases hc) (fun _ => hk1 rfl)
    · exact hvoi
    · intro s e k hse hei hme hall hs hk1 hk2
      have hne : e ≠ i := by
        intro heq; rw [heq, hm] at hme; cases hme
      exact hclo s e k hse (by omega) hme hall hs hk1 hk2
  · -- unvoiced frame inside a gap: the gap goes on
    rw [gapStep_continue _ _ _ _ _ _ hm]
    refine ⟨?_, ?_, ?_, ?_, ?_, ?_, ?_, ?_⟩ <;> dsimp only
    · exact hlen
    · intro _; have := holt rfl; omega
    · intro _ j hj1 hj2
      by_cases hji : j = i
      · rw [hji]; exact hm
      · exact hounv rfl j hj1 (by omega)
    · exact hostart
    · intro hc; cases hc
    · intro k hk1 _
      exact hunt k hk1 (fun hc => by cases hc)
    · exact hvoi
    · intro s e k hse hei hme hall hs hk1 hk2
      have hne : e ≠ i := by
        intro heq; rw [heq, hm] at hme; cases hme
      exact hclo s e k hse (by omega) hme hall hs hk1 hk2
  · -- voiced frame, not in a gap
    rw [gapStep_voiced _ _ _ _ _ _ hm]
    refine ⟨?_, ?_, ?_, ?_, ?_, ?_, ?_, ?_⟩ <;> dsimp only
    · exact hlen
    · intro hc; cases hc
    · intro hc; cases hc
    · intro hc; cases hc
    · intro _; right; rw [Nat.add_sub_cancel]; exact hm
    · intro k _ hk2
      exact hunt k (fun hc => by cases hc) (fun _ => by have := hk2 rfl; omega)
    · exact hvoi
    · intro s e k hse hei hme hall hs hk1 hk2
      by_cases hei' : e = i
      · exfalso
        have h1 := hall (i - 1) (by omega) (by omega)
        rcases hcprev rfl with h0 | h0
        · omega
        · rw [h1] at h0; cases h0
      · exact hclo s e k hse (by omega) hme hall hs hk1 hk2
  · -- voiced frame closing the gap `[gs, i)`
    have hgs : gs < i := holt rfl
    rw [gapStep_close _ _ _ _ _ _ hm]
    have hX : ∀ k, (if i - gs ≤ toSizeT maxGapFrames ∧ gs > 0 then
          if findPrev f0 voicedMask gs > 0 ∧ findNext f0 voicedMask i > 0 then
            fillGap interp (findPrev f0 voicedMask gs) (findNext f0 voicedMask i) gs i
          else interp
        else interp).getD k 0 =
        if gs ≤ k ∧ k < i then gapValue f0 voicedMask maxGapFrames gs i k
        else interp.getD k 0 := by
      intro k
      unfold gapValue
      by_cases hc1 : i - gs ≤ toSizeT maxGapFrames ∧ gs > 0
      · by_cases hc2 : findPrev f0 voicedMask gs > 0 ∧ findNext f0 voicedMask i > 0
        · have hc3 : i - gs ≤ toSizeT maxGapFrames ∧ gs > 0 ∧
              findPrev f0 voicedMask gs > 0 ∧ findNext f0 voicedMask i > 0 :=
            ⟨hc1.1, hc1.2, hc2.1, hc2.2⟩
          rw [if_pos hc1, if_pos hc2, if_pos hc3, getD_fillGap, hlen]
          apply if_congr _ rfl rfl
          constructor
          · rintro ⟨a, b, _⟩; exact ⟨a, b⟩
          · rintro ⟨a, b⟩; exact ⟨a, b, by omega⟩
        · have hc3 : ¬ (i - gs ≤ toSizeT maxGapFrames ∧ gs > 0 ∧
              findPrev f0 voicedMask gs > 0 ∧ findNext f0 voicedMask i > 0) :=
            fun hc => hc2 ⟨hc.2.2.1, hc.2.2.2⟩
          rw [if_pos hc1, if_neg hc2, if_neg hc3]
          split_ifs with hk
          · exact hunt k (fun _ => hk.1) (fun hc => by cases hc)
          · rfl
      · have hc3 : ¬ (i - gs ≤ toSizeT maxGapFrames ∧ gs > 0 ∧
            findPrev f0 voicedMask gs > 0 ∧ findNext f0 voicedMask i > 0) :=
          fun hc => hc1 ⟨hc.1, hc.2.1⟩
        rw [if_neg hc1, if_neg hc3]
        split_ifs with hk
        · exact hunt k (fun _ => hk.1) (fun hc => by cases hc)
        · rfl
    refine ⟨?_, ?_, ?_, ?_, ?_, ?_, ?_, ?_⟩ <;> dsimp only
    · split_ifs <;> simp [length_fillGap, hlen]
    · intro hc; cases hc
    · intro hc; cases hc
    · intro hc; cases hc
    · intro _; right; rw [Nat.add_sub_cancel]; exact hm
    · intro k _ hk2
      have hk3 := hk2 rfl
      rw [hX, if_neg (by omega)]
      exact hunt k (fun _ => by omega) (fun hc => by cases hc)
    · intro k hk
      rw [hX]
      split_ifs with hk'
      · have := hounv rfl k hk'.1 hk'.2
        rw [this] at hk; cases hk
      · exact hvoi k hk
    · intro s e k hse hei hme hall hs hk1 hk2
      rw [hX]
      by_cases hei' : e = i
      · subst hei'
        have hsgs : s = gs := by
          rcases Nat.lt_trichotomy s gs with hlt | heq | hgt
          · exfalso
            have h1 := hall (gs - 1) (by omega) (by omega)
            rcases hostart rfl with h0 | h0
            · omega
            · rw [h1] at h0; cases h0
          · exact heq
          · exfalso
            have h1 := hounv rfl (s - 1) (by omega) (by omega)
            rcases hs with h0 | h0
            · omega
            · rw [h1] at h0; cases h0
        subst hsgs
        rw [if_pos ⟨hk1, hk2⟩]
      · have hegs : e < gs := by
          by_contra hcon
          have h1 := hounv rfl e (by omega) (by omega)
          rw [h1] at hme; cases hme
        rw [if_neg (by omega)]
        exact hclo s e k hse (by omega) hme hall hs hk1 hk2

theorem gapInv_gapLoop (f0 : List ℚ) (voicedMask : List Bool) (maxGapFrames : Int) (i : Nat)
    (hi : i ≤ f0.length) :
    GapInv f0 voicedMask maxGapFrames i (gapLoop f0 voicedMask maxGapFrames i) := by
  induction i with
  | zero => exact gapInv_zero f0 voicedMask maxGapFrames
  | succ i ih =>
    rw [gapLoop_succ]
    exact gapInv_step f0 voicedMask maxGapFrames i _ (by omega) (ih (by omega))

theorem findPrev_succ (f0 : List ℚ) (voicedMask : List Bool) (s : Nat) :
    findPrev f0 voicedMask (s + 1) =
      if voicedPositive f0 voicedMask s = true then f0.getD s 0
      else findPrev f0 voicedMask s := by
  unfold findPrev
  rw [List.range_succ, List.reverse_append, List.reverse_singleton, List.singleton_append,
    List.find?_cons]
  cases voicedPositive f0 voicedMask s <;> simp

theorem findNext_of_lt (f0 : List ℚ) (voicedMask : List Bool) (e : Nat) (he : e < f0.length) :
    findNext f0 voicedMask e =
      if voicedPositive f0 voicedMask e = true then f0.getD e 0
      else findNext f0 voicedMask (e + 1) := by
  unfold findNext
  have hsub : f0.length - e = (f0.length - (e + 1)) + 1 := by omega
  rw [hsub, List.range'_succ, List.find?_cons]
  cases voicedPositive f0 voicedMask e <;> simp

theorem findPrev_eq_zero (f0 : List ℚ) (voicedMask : List Bool) (s : Nat)
    (h : ∀ j, j < s → voicedPositive f0 voicedMask j = false) :
    findPrev f0 voicedMask s = 0 := by
  induction s with
  | zero => rfl
  | succ s ih =>
    rw [findPrev_succ, h s (Nat.lt_succ_self s)]
    simpa using ih (fun j hj => h j (Nat.lt_succ_of_lt hj))

theorem findNext_eq_zero (f0 : List ℚ) (voicedMask : List Bool) (e : Nat)
    (h : ∀ j, e ≤ j → j < f0.length → voicedPositive f0 voicedMask j = false) :
    findNext f0 voicedMask e = 0 := by
  unfold findNext
  have hnone : (List.range' e (f0.length - e)).find? (voicedPositive f0 voicedMask) = none := by
    rw [List.find?_eq_none]
    intro j hj
    rw [List.mem_range'_1] at hj
    rw [h j hj.1 (by omega)]
    simp
  rw [hnone]

theorem getD_interpolateUnvoiced_gap (f0 : List ℚ) (voicedMask : List Bool)
    (maxGapFrames : Int) (s e k : Nat) (hlen : f0.length = voicedMask.length)
    (hgap : IsGap voicedMask s e) (hk1 : s ≤ k) (hk2 : k < e) :
    (interpolateUnvoiced f0 voicedMask maxGapFrames).getD k 0 =
      if e < f0.length then gapValue f0 voicedMask maxGapFrames s e k else f0.getD k 0 := by
  obtain ⟨hse, hen, hall, hs, he⟩ := hgap
  have hne : ¬ (f0 = [] ∨ f0.length ≠ voicedMask.length) := by
    rintro (hc | hc)
    · rw [hc] at hlen; simp at hlen; omega
    · exact hc hlen
  unfold interpolateUnvoiced
  rw [if_neg hne]
  have inv := gapInv_gapLoop f0 voicedMask maxGapFrames f0.length (Nat.le_refl _)
  by_cases hef : e < f0.length
  · rw [if_pos hef]
    have hme : voicedMask.getD e false = true := by
      rcases he with h0 | h0
      · omega
      · exact h0
    exact inv.closed s e k hse hef hme hall hs hk1 hk2
  · rw [if_neg hef]
    have hen' : e = f0.length := by omega
    apply inv.untouched
    · intro hg
      by_contra hcon
      have h1 := hall ((gapLoop f0 voicedMask maxGapFrames f0.length).gapStart - 1)
        (by omega) (by have := inv.open_lt hg; omega)
      rcases inv.open_start hg with h0 | h0
      · omega
      · rw [h1] at h0; cases h0
    · intro hg
      exfalso
      have h1 := hall (f0.length - 1) (by omega) (by omega)
      rcases inv.closed_prev hg with h0 | h0
      · omega
      · rw [h1] at h0; cases h0

theorem getD_interpolateUnvoiced_voiced (f0 : List ℚ) (voicedMask : List Bool)
    (maxGapFrames : Int) (k : Nat) (hk : voicedMask.getD k false = true) :
    (interpolateUnvoiced f0 voicedMask maxGapFrames).getD k 0 = f0.getD k 0 := by
  unfold interpolateUnvoiced
  split_ifs with h
  · rfl
  · exact (gapInv_gapLoop f0 voicedMask maxGapFrames f0.length (Nat.le_refl _)).voiced k hk

theorem toSizeT_of_nonneg (x : Int) (h0 : 0 ≤ x) (h1 : x < 2 ^ 31) : (toSizeT x : Int) = x := by
  unfold toSizeT
  omega

theorem findPrev_of_nearest (f0 : List ℚ) (voicedMask : List Bool) (s jp : Nat) (hjp : jp < s)
    (hvp : voicedPositive f0 voicedMask jp = true)
    (hnone : ∀ j, jp < j → j < s → voicedPositive f0 voicedMask j = false) :
    findPrev f0 voicedMask s = f0.getD jp 0 := by
  induction s with
  | zero => omega
  | succ s ih =>
    rw [findPrev_succ]
    by_cases hjs : jp = s
    · subst hjs
      rw [if_pos hvp]
    · have hlt : jp < s := by omega
      have hs : voicedPositive f0 voicedMask s = false := hnone s hlt (Nat.lt_succ_self s)
      rw [hs]
      simpa using ih hlt (fun j h1 h2 => hnone j h1 (Nat.lt_succ_of_lt h2))

theorem findNext_of_nearest (f0 : List ℚ) (voicedMask : List Bool) (d e jn : Nat)
    (hd : jn = e + d) (hjn : jn < f0.length)
    (hvp : voicedPositive f0 voicedMask jn = true)
    (hnone : ∀ j, e ≤ j → j < jn → voicedPositive f0 voicedMask j = false) :
    findNext f0 voicedMask e = f0.getD jn 0 := by
  induction d generalizing e with
  | zero =>
    have hje : jn = e := by omega
    subst hje
    rw [findNext_of_lt _ _ _ hjn, if_pos hvp]
  | succ d ih =>
    have he : voicedPositive f0 voicedMask e = false := hnone e (Nat.le_refl e) (by omega)
    rw [findNext_of_lt _ _ _ (by omega), he]
    simpa using ih (e + 1) (by omega) (fun j h1 h2 => hnone j (by omega) h2)

/-- C8: gap filling by `interpolateUnvoiced f0 m maxGap`.  For a contour and a mask of equal
length, a maximal run of unvoiced frames `[s, e)` with `s > 0`, `e < n`, length
`g = e - s ≤ maxGap`, a positive value `p` at frame `s - 1` and a positive value `q` at
frame `e` (both frames are voiced, the run being maximal) is rewritten so that frame `s + k`,
`0 ≤ k < g`, becomes `p * (1 - k/g) + q * (k/g)`.  `maxGap` is a C++ `int`. -/
theorem interpolateUnvoiced_fills_gap (f0 : List ℚ) (voicedMask : List Bool)
    (maxGapFrames : Int) (s e k : Nat) (p q : ℚ)
    (hlen : f0.length = voicedMask.length) (hint : maxGapFrames < 2 ^ 31)
    (hgap : IsGap voicedMask s e) (hs : 0 < s) (he : e < f0.length)
    (hsize : ((e - s : Nat) : Int) ≤ maxGapFrames)
    (hp : f0.getD (s - 1) 0 = p) (hp0 : 0 < p) (hq : f0.getD e 0 = q) (hq0 : 0 < q)
    (hk : k < e - s) :
    (interpolateUnvoiced f0 voicedMask maxGapFrames).getD (s + k) 0 =
      p * (1 - (k : ℚ) / ((e - s : Nat) : ℚ)) + q * ((k : ℚ) / ((e - s : Nat) : ℚ)) := by
  rw [getD_interpolateUnvoiced_gap f0 voicedMask maxGapFrames s e (s + k) hlen hgap
    (by omega) (by omega), if_pos he]
  obtain ⟨hse, hen, hall, hsv, hev⟩ := hgap
  have hmprev : voicedMask.getD (s - 1) false = true := by
    rcases hsv with h0 | h0
    · omega
    · exact h0
  have hmnext : voicedMask.getD e false = true := by
    rcases hev with h0 | h0
    · omega
    · exact h0
  have hprev : findPrev f0 voicedMask s = p := by
    rw [findPrev_of_nearest f0 voicedMask s (s - 1) (by omega)
      (by simp only [voicedPositive, hmprev, hp, hp0, decide_True, Bool.and_self])
      (fun j h1 h2 => by omega), hp]
  have hnext : findNext f0 voicedMask e = q := by
    rw [findNext_of_nearest f0 voicedMask 0 e e rfl he
      (by simp only [voicedPositive, hmnext, hq, hq0, decide_True, Bool.and_self])
      (fun j h1 h2 => by omega), hq]
  have hsz : e - s ≤ toSizeT maxGapFrames := by
    have := toSizeT_of_nonneg maxGapFrames (by omega) hint
    omega
  unfold gapValue
  rw [if_pos ⟨hsz, hs, by rw [hprev]; exact hp0, by rw [hnext]; exact hq0⟩, hprev, hnext]
  unfold lerp
  dsimp only
  rw [Nat.add_sub_cancel_left]

/-- Witness for C8: pitches `[100,100,0,0,0,100]`, mask `[T,T,F,F,F,T]`, `maxGap = 5` give
`100` at the three frames of the gap. -/
theorem interpolateUnvoiced_fills_gap_witness :
    IsGap [true, true, false, false, false, true] 2 5 ∧
    (interpolateUnvoiced [100, 100, 0, 0, 0, 100] [true, true, false, false, false, true]
      5).getD (2 + 0) 0 = 100 ∧
    (interpolateUnvoiced [100, 100, 0, 0, 0, 100] [true, true, false, false, false, true]
      5).getD (2 + 1) 0 = 100 ∧
    (interpolateUnvoiced [100, 100, 0, 0, 0, 100] [true, true, false, false, false, true]
      5).getD (2 + 2) 0 = 100 := by
  have h : ∀ k, k < 5 - 2 →
      (interpolateUnvoiced [100, 100, 0, 0, 0, 100] [true, true, false, false, false, true]
        5).getD (2 + k) 0 =
      100 * (1 - (k : ℚ) / ((5 - 2 : Nat) : ℚ)) + 100 * ((k : ℚ) / ((5 - 2 : Nat) : ℚ)) :=
    fun k hk => interpolateUnvoiced_fills_gap [100, 100, 0, 0, 0, 100]
      [true, true, false, false, false, true] 5 2 5 k 100 100 rfl (by decide) (by decide)
      (by decide) (by decide) (by decide) rfl (by norm_num) rfl (by norm_num) hk
  refine ⟨by decide, ?_, ?_, ?_⟩
  · rw [h 0 (by decide)]; norm_num
  · rw [h 1 (by decide)]; norm_num
  · rw [h 2 (by decide)]; norm_num

/-- C9: gaps that are not filled.  For a contour and a mask of equal length and an `int`
`maxGap ≥ 0`, `interpolateUnvoiced` leaves unchanged every frame of a maximal unvoiced run
that starts at index 0, or is longer than `maxGap` frames, or extends to the last frame of
the contour. -/
theorem interpolateUnvoiced_keeps_gap (f0 : List ℚ) (voicedMask : List Bool)
    (maxGapFrames : Int) (s e k : Nat)
    (hlen : f0.length = voicedMask.length) (h0 : 0 ≤ maxGapFrames)
    (hint : maxGapFrames < 2 ^ 31) (hgap : IsGap voicedMask s e)
    (hcase : s = 0 ∨ maxGapFrames < ((e - s : Nat) : Int) ∨ e = f0.length)
    (hk1 : s ≤ k) (hk2 : k < e) :
    (interpolateUnvoiced f0 voicedMask maxGapFrames).getD k 0 = f0.getD k 0 := by
  rw [getD_interpolateUnvoiced_gap f0 voicedMask maxGapFrames s e k hlen hgap hk1 hk2]
  split_ifs with he
  · unfold gapValue
    have hcast := toSizeT_of_nonneg maxGapFrames h0 hint
    rw [if_neg]
    rintro ⟨hc1, hc2, _, _⟩
    rcases hcase with h | h | h
    · omega
    · omega
    · omega
  · rfl

/-- Witness for C9: a 6-frame gap between two voiced 100 Hz frames with `maxGap = 5` is
returned unfilled. -/
theorem interpolateUnvoiced_keeps_gap_witness :
    IsGap [true, false, false, false, false, false, false, true] 1 7 ∧
    (interpolateUnvoiced [100, 0, 0, 0, 0, 0, 0, 100]
      [true, false, false, false, false, false, false, true] 5).getD 1 0 = 0 ∧
    (interpolateUnvoiced [100, 0, 0, 0, 0, 0, 0, 100]
      [true, false, false, false, false, false, false, true] 5).getD 4 0 = 0 ∧
    (interpolateUnvoiced [100, 0, 0, 0, 0, 0, 0, 100]
      [true, false, false, false, false, false, false, true] 5).getD 6 0 = 0 :=
  ⟨by decide,
    interpolateUnvoiced_keeps_gap [100, 0, 0, 0, 0, 0, 0, 100]
      [true, false, false, false, false, false, false, true] 5 1 7 1 rfl (by decide)
      (by decide) (by decide) (Or.inr (Or.inl (by decide))) (by decide) (by decide),
    interpolateUnvoiced_keeps_gap [100, 0, 0, 0, 0, 0, 0, 100]
      [true, false, false, false, false, false, false, true] 5 1 7 4 rfl (by decide)
      (by decide) (by decide) (Or.inr (Or.inl (by decide))) (by decide) (by decide),
    interpolateUnvoiced_keeps_gap [100, 0, 0, 0, 0, 0, 0, 100]
      [true, false, false, false, false, false, false, true] 5 1 7 6 rfl (by decide)
      (by decide) (by decide) (Or.inr (Or.inl (by decide))) (by decide) (by decide)⟩

/-- C10 (counterexample): in `[100, 0, 0, 200]` with mask `[T, T, F, T]` the unvoiced run
`[2, 3)` is preceded by frame 1, which is marked voiced but holds pitch `0`.  The run is
filled all the same, with the value `100` of frame 0, which is not adjacent to the gap. -/
theorem interpolateUnvoiced_fills_past_zero_boundary :
    IsGap [true, true, false, true] 2 3 ∧
    ¬ (0 < ([100, 0, 0, 200] : List ℚ).getD 1 0) ∧
    interpolateUnvoiced [100, 0, 0, 200] [true, true, false, true] 5 = [100, 0, 100, 200] ∧
    (interpolateUnvoiced [100, 0, 0, 200] [true, true, false, true] 5).getD 2 0 ≠
      ([100, 0, 0, 200] : List ℚ).getD 2 0 := by
  have h : interpolateUnvoiced [100, 0, 0, 200] [true, true, false, true] 5 =
      [100, 0, 100, 200] := by
    simp [interpolateUnvoiced, gapLoop, gapStep, List.range_succ, toSizeT, findPrev, findNext,
      voicedPositive, fillGap, lerp, List.range']
  refine ⟨by decide, by norm_num, h, ?_⟩
  rw [h]
  norm_num

/-- C10 (amended): a gap missing a boundary value is left unmodified, where the boundary
values are those of the nearest voiced positive frames.  For a maximal unvoiced run `[s, e)`
and a frame `k` of it: if no frame before `s` is voiced with a positive pitch, or no frame
from `e` on is, frame `k` is unchanged; and if `jp` is the nearest voiced positive frame
before `s` and `jn` the nearest one from `e` on, frame `k` is the interpolation between
`f0[jp]` and `f0[jn]` when the gap length passes the `maxGap` test, and unchanged otherwise. -/
theorem interpolateUnvoiced_nearest_boundary (f0 : List ℚ) (voicedMask : List Bool)
    (maxGapFrames : Int) (s e k : Nat)
    (hlen : f0.length = voicedMask.length) (hgap : IsGap voicedMask s e)
    (hk1 : s ≤ k) (hk2 : k < e) :
    (((∀ j, j < s → voicedPositive f0 voicedMask j = false) ∨
        (∀ j, e ≤ j → j < f0.length → voicedPositive f0 voicedMask j = false)) →
      (interpolateUnvoiced f0 voicedMask maxGapFrames).getD k 0 = f0.getD k 0) ∧
    (∀ jp jn, jp < s → voicedPositive f0 voicedMask jp = true →
      (∀ j, jp < j → j < s → voicedPositive f0 voicedMask j = false) →
      e ≤ jn → jn < f0.length → voicedPositive f0 voicedMask jn = true →
      (∀ j, e ≤ j → j < jn → voicedPositive f0 voicedMask j = false) →
      (interpolateUnvoiced f0 voicedMask maxGapFrames).getD k 0 =
        if e - s ≤ toSizeT maxGapFrames then
          lerp (f0.getD jp 0) (f0.getD jn 0) s (e - s) k
        else f0.getD k 0) := by
  rw [getD_interpolateUnvoiced_gap f0 voicedMask maxGapFrames s e k hlen hgap hk1 hk2]
  constructor
  · intro hmiss
    split_ifs with he
    · unfold gapValue
      rw [if_neg]
      rintro ⟨_, _, hc3, hc4⟩
      rcases hmiss with h | h
      · rw [findPrev_eq_zero f0 voicedMask s h] at hc3
        exact lt_irrefl _ hc3
      · rw [findNext_eq_zero f0 voicedMask e h] at hc4
        exact lt_irrefl _ hc4
    · rfl
  · intro jp jn hjp hvp hnp hjn hjn2 hvn hnn
    have hprev := findPrev_of_nearest f0 voicedMask s jp hjp hvp hnp
    have hnext := findNext_of_nearest f0 voicedMask (jn - e) e jn (by omega) hjn2 hvn hnn
    have hp0 : 0 < f0.getD jp 0 := by
      simp only [voicedPositive, Bool.and_eq_true, decide_eq_true_eq] at hvp
      exact hvp.2
    have hq0 : 0 < f0.getD jn 0 := by
      simp only [voicedPositive, Bool.and_eq_true, decide_eq_true_eq] at hvn
      exact hvn.2
    rw [if_pos (by omega)]
    unfold gapValue
    rw [hprev, hnext]
    apply if_congr _ rfl rfl
    constructor
    · intro hc; exact hc.1
    · intro hc; exact ⟨hc, by omega, hp0, hq0⟩

/-- Witness for C10 (amended): in `[100, 0, 0, 200]` with mask `[T, T, F, T]` the nearest
voiced positive frames around the run `[2, 3)` are frames 0 and 3, and frame 2 becomes
`100`. -/
theorem interpolateUnvoiced_nearest_boundary_witness :
    IsGap [true, true, false, true] 2 3 ∧
    (interpolateUnvoiced [100, 0, 0, 200] [true, true, false, true] 5).getD 2 0 = 100 := by
  refine ⟨by decide, ?_⟩
  have h := (interpolateUnvoiced_nearest_boundary [100, 0, 0, 200] [true, true, false, true] 5
    2 3 2 rfl (by decide) (by decide) (by decide)).2 0 3 (by decide)
    (by simp [voicedPositive])
    (fun j h1 h2 => by
      have hj : j = 1 := by omega
      subst hj
      simp [voicedPositive])
    (by decide) (by decide) (by simp [voicedPositive])
    (fun j h1 h2 => by omega)
  rw [h]
  simp [toSizeT, lerp]

/-! ## Constant contours and remaining jumps -/

theorem getD_replicate_ite (n i : Nat) (c : ℚ) :
    (List.replicate n c).getD i 0 = if i < n then c else 0 := by
  rw [List.getD_eq_getElem?_getD, List.getElem?_replicate]
  split_ifs <;> rfl

theorem eq_of_getD_eq (l1 l2 : List ℚ) (hlen : l1.length = l2.length)
    (h : ∀ i, i < l1.length → l1.getD i 0 = l2.getD i 0) : l1 = l2 := by
  apply List.ext_getElem hlen
  intro i h1 h2
  have := h i h1
  rw [List.getD_eq_getElem?_getD, List.getD_eq_getElem?_getD, List.getElem?_eq_getElem h1,
    List.getElem?_eq_getElem h2] at this
  exact this

theorem getD_medianFilter (f0 : List ℚ) (w : Int) (i : Nat) (hne : f0 ≠ []) (hw : 1 ≤ w)
    (hi : i < f0.length) :
    (medianFilter f0 w).getD i 0 =
      medianOrKeep (positivesInWindow f0 ((if w % 2 = 0 then w + 1 else w) / 2) i)
        (f0.getD i 0) := by
  unfold medianFilter
  have hguard : ¬ (f0 = [] ∨ w < 1) := by
    rintro (hc | hc)
    · exact hne hc
    · omega
  rw [if_neg hguard]
  dsimp only
  rw [getD_foldl_set]
  have hmem : i ∈ List.range f0.length ∧ i < (List.replicate f0.length (0 : ℚ)).length := by
    simp [hi]
  rw [if_pos hmem]
  have hh : 0 ≤ (if w % 2 = 0 then w + 1 else w) / 2 := by
    split_ifs <;> omega
  rw [windowValues_eq f0 _ i hh hi]

theorem positivesInWindow_replicate (n : Nat) (c : ℚ) (h : Int) (i : Nat) (hh : 0 ≤ h)
    (hi : i < n) :
    ∃ cnt : Nat, 0 < cnt ∧
      positivesInWindow (List.replicate n c) h i =
        if 0 < c then List.replicate cnt c else [] := by
  unfold positivesInWindow
  dsimp only
  rw [List.length_replicate]
  obtain ⟨lo, hlo⟩ : ∃ lo : Nat, lo = (max 0 ((i : Int) - h)).toNat := ⟨_, rfl⟩
  obtain ⟨hi', hhi⟩ : ∃ x : Nat, x = (min ((n : Int) - 1) ((i : Int) + h)).toNat := ⟨_, rfl⟩
  rw [← hlo, ← hhi]
  refine ⟨hi' + 1 - lo, by omega, ?_⟩
  have hmap : (List.range' lo (hi' + 1 - lo)).map (fun j => (List.replicate n c).getD j 0) =
      List.replicate (hi' + 1 - lo) c := by
    rw [List.eq_replicate_iff]
    refine ⟨by simp, ?_⟩
    intro b hb
    rw [List.mem_map] at hb
    obtain ⟨j, hj, rfl⟩ := hb
    rw [List.mem_range'_1] at hj
    rw [getD_replicate_ite, if_pos (by omega)]
  rw [hmap, List.filter_replicate]
  simp

theorem medianOrKeep_replicate (cnt : Nat) (c : ℚ) (hcnt : 0 < cnt) :
    medianOrKeep (List.replicate cnt c) c = c := by
  unfold medianOrKeep
  have hne : List.replicate cnt c ≠ [] := by
    intro hc
    have := congrArg List.length hc
    simp at this
    omega
  rw [if_pos hne]
  dsimp only
  have hsorted : (List.replicate cnt c).insertionSort (· ≤ ·) = List.replicate cnt c := by
    apply List.Sorted.insertionSort_eq
    rw [List.Sorted, List.pairwise_replicate]
    right
    exact le_refl c
  have h1 : cnt / 2 < cnt := by omega
  have h2 : cnt / 2 - 1 < cnt := by omega
  rw [hsorted, List.length_replicate]
  simp only [getD_replicate_ite, h1, h2, if_true]
  split_ifs
  · ring
  · rfl

theorem medianFilter_replicate (n : Nat) (c : ℚ) (w : Int) :
    medianFilter (List.replicate n c) w = List.replicate n c := by
  by_cases hg : List.replicate n c = [] ∨ w < 1
  · unfold medianFilter
    rw [if_pos hg]
  · have hne : List.replicate n c ≠ [] := fun hc => hg (Or.inl hc)
    have hw : 1 ≤ w := by
      by_contra hc
      exact hg (Or.inr (by omega))
    apply eq_of_getD_eq _ _ (length_medianFilter _ _)
    intro i hi
    rw [length_medianFilter, List.length_replicate] at hi
    rw [getD_medianFilter _ w i hne hw (by rw [List.length_replicate]; exact hi)]
    have hh : 0 ≤ (if w % 2 = 0 then w + 1 else w) / 2 := by
      split_ifs <;> omega
    obtain ⟨cnt, hcnt, hpos⟩ := positivesInWindow_replicate n c _ i hh hi
    rw [hpos, getD_replicate_ite, if_pos hi]
    by_cases hc : 0 < c
    · rw [if_pos hc, medianOrKeep_replicate cnt c hcnt]
    · rw [if_neg hc]
      simp [medianOrKeep]

/-- C15: constant-signal invariance of the median filter.  For every value `c` (positive,
zero or negative), every length `n` and every window size `w`, `medianFilter` applied to
`n` copies of `c` returns `n` copies of `c`. -/
theorem medianFilter_constant (n : Nat) (c : ℚ) (w : Int) :
    medianFilter (List.replicate n c) w = List.replicate n c ∧
    (medianFilter (List.replicate n c) w).length = n := by
  have h := medianFilter_replicate n c w
  refine ⟨h, ?_⟩
  rw [h, List.length_replicate]

/-- C20 (evaluation of the code where the claim fails): on `[100, 100, 100, 260, 101]` with
`maxJumpRatio = 1.5` the output is `[100, 100, 100, 100.5, 260]`.  Frames 3 and 4 of the
output are positive and their ratio `260 / 100.5` exceeds `1.5`: the spike value `260` has
moved from frame 3 to frame 4, which held the sound value `101`. -/
theorem removeOutliers_leaves_jump :
    (removeOutliers [100, 100, 100, 260, 101] (3 / 2)).getD 3 0 = 201 / 2 ∧
    (removeOutliers [100, 100, 100, 260, 101] (3 / 2)).getD 4 0 = 260 ∧
    (removeOutliers [100, 100, 100, 260, 101] (3 / 2)).getD 4 0 /
      (removeOutliers [100, 100, 100, 260, 101] (3 / 2)).getD 3 0 > 3 / 2 := by
  have h3 : (removeOutliers [100, 100, 100, 260, 101] (3 / 2)).getD 3 0 = 201 / 2 := by
    rw [getD_removeOutliers]
    norm_num
  have h4 : (removeOutliers [100, 100, 100, 260, 101] (3 / 2)).getD 4 0 = 260 := by
    rw [getD_removeOutliers]
    norm_num
  refine ⟨h3, h4, ?_⟩
  rw [h3, h4]
  norm_num

/-! ## Voiced-aware smoothing -/

theorem foldl_pair_sum (p : Nat → Prop) [DecidablePred p] (a b : Nat → ℚ) (l : List Nat)
    (init : ℚ × ℚ) :
    l.foldl (fun acc k => if p k then (acc.1 + a k, acc.2 + b k) else acc) init =
      (init.1 + ((l.filter (fun k => decide (p k))).map a).sum,
        init.2 + ((l.filter (fun k => decide (p k))).map b).sum) := by
  induction l generalizing init with
  | nil => simp
  | cons k rest ih =>
    rw [List.foldl_cons, ih]
    by_cases hp : p k
    · simp [hp, List.filter_cons, add_assoc]
    · simp [hp, List.filter_cons]

theorem wrapInt32_of_lt (x : Int) (h0 : 0 ≤ x) (h1 : x < 2 ^ 31) : wrapInt32 x = x := by
  unfold wrapInt32
  omega

theorem mul_self_le_of_abs_le (h j : Int) (hj1 : -h ≤ j) (hj2 : j ≤ h) : j * j ≤ h * h := by
  nlinarith

theorem mul_self_lt_of_le (h : Int) (h0 : 0 ≤ h) (h1 : h ≤ 46340) : h * h < 2 ^ 31 := by
  nlinarith

theorem transitionWeight_eq (expf : ℚ → ℚ) (h j : Int) (h0 : 0 ≤ h) (h1 : h ≤ 46340)
    (hj1 : -h ≤ j) (hj2 : j ≤ h) :
    transitionWeight expf h j = gaussWeight expf h j := by
  unfold transitionWeight gaussWeight
  have hh := mul_self_lt_of_le h h0 h1
  have hjj := mul_self_le_of_abs_le h j hj1 hj2
  rw [wrapInt32_of_lt (j * j) (mul_self_nonneg j) (by omega),
    wrapInt32_of_lt (h * h) (mul_self_nonneg h) hh]
  congr 1
  push_cast
  ring

theorem weightedSums_eq (expf : ℚ → ℚ) (f0 : List ℚ) (voicedMask : List Bool) (h : Int)
    (i : Nat) :
    weightedSums expf f0 voicedMask h i =
      (((qualifyingOffsets f0 voicedMask h i).map
          (fun j => transitionWeight expf h j * f0.getD ((i : Int) + j).toNat 0)).sum,
        ((qualifyingOffsets f0 voicedMask h i).map
          (fun j => transitionWeight expf h j)).sum) := by
  unfold weightedSums qualifyingOffsets
  dsimp only
  rw [foldl_pair_sum (fun (k : Nat) => 0 ≤ (i : Int) + (-h + (k : Int)) ∧
      (i : Int) + (-h + (k : Int)) < (f0.length : Int) ∧
      voicedMask.getD ((i : Int) + (-h + (k : Int))).toNat false = true ∧
      f0.getD ((i : Int) + (-h + (k : Int))).toNat 0 > 0)
    (fun (k : Nat) => f0.getD ((i : Int) + (-h + (k : Int))).toNat 0 *
      transitionWeight expf h (-h + (k : Int)))
    (fun (k : Nat) => transitionWeight expf h (-h + (k : Int)))]
  rw [List.filter_map, List.map_map, List.map_map]
  have hsub : ∀ k : Nat, (k : Int) - h = -h + (k : Int) := fun k => by ring
  have hfilter : (List.range (2 * h + 1).toNat).filter
      ((fun j => decide (0 ≤ (i : Int) + j ∧ (i : Int) + j < (f0.length : Int) ∧
        voicedMask.getD ((i : Int) + j).toNat false = true ∧
        0 < f0.getD ((i : Int) + j).toNat 0)) ∘ fun (k : Nat) => (k : Int) - h) =
      (List.range (2 * h + 1).toNat).filter
        (fun (k : Nat) => decide (0 ≤ (i : Int) + (-h + (k : Int)) ∧
          (i : Int) + (-h + (k : Int)) < (f0.length : Int) ∧
          voicedMask.getD ((i : Int) + (-h + (k : Int))).toNat false = true ∧
          f0.getD ((i : Int) + (-h + (k : Int))).toNat 0 > 0)) := by
    apply List.filter_congr
    intro k _
    simp only [Function.comp_apply, hsub, gt_iff_lt]
  rw [hfilter]
  simp only [zero_add]
  congr 1
  · congr 1
    apply List.map_congr_left
    intro k _
    simp only [Function.comp_apply, hsub]
    ring
  · congr 1
    apply List.map_congr_left
    intro k _
    simp only [Function.comp_apply, hsub]

theorem getD_smoothTransitions (expf : ℚ → ℚ) (f0 : List ℚ) (voicedMask : List Bool)
    (w : Int) (i : Nat) (hlen : f0.length = voicedMask.length) (hi : i < f0.length) :
    (smoothTransitions expf f0 voicedMask w).getD i 0 =
      if voicedMask.getD i false = false ∨ f0.getD i 0 ≤ 0 then f0.getD i 0
      else if (weightedSums expf f0 voicedMask ((if w < 1 then 1 else w) / 2) i).2 > 0 then
        (weightedSums expf f0 voicedMask ((if w < 1 then 1 else w) / 2) i).1 /
          (weightedSums expf f0 voicedMask ((if w < 1 then 1 else w) / 2) i).2
      else f0.getD i 0 := by
  unfold smoothTransitions
  have hguard : ¬ (f0 = [] ∨ f0.length ≠ voicedMask.length) := by
    rintro (hc | hc)
    · rw [hc] at hi; simp at hi
    · exact hc hlen
  rw [if_neg hguard]
  dsimp only
  have hstep : (fun (smoothed : List ℚ) (i : Nat) =>
      if voicedMask.getD i false = false ∨ f0.getD i 0 ≤ 0 then smoothed.set i (f0.getD i 0)
      else if (weightedSums expf f0 voicedMask ((if w < 1 then 1 else w) / 2) i).2 > 0 then
        smoothed.set i
          ((weightedSums expf f0 voicedMask ((if w < 1 then 1 else w) / 2) i).1 /
            (weightedSums expf f0 voicedMask ((if w < 1 then 1 else w) / 2) i).2)
      else smoothed.set i (f0.getD i 0)) =
      fun smoothed i => smoothed.set i
        (if voicedMask.getD i false = false ∨ f0.getD i 0 ≤ 0 then f0.getD i 0
        else if (weightedSums expf f0 voicedMask ((if w < 1 then 1 else w) / 2) i).2 > 0 then
          (weightedSums expf f0 voicedMask ((if w < 1 then 1 else w) / 2) i).1 /
            (weightedSums expf f0 voicedMask ((if w < 1 then 1 else w) / 2) i).2
        else f0.getD i 0) := by
    funext smoothed i
    split_ifs <;> rfl
  rw [hstep, getD_foldl_set]
  have hmem : i ∈ List.range f0.length ∧ i < (List.replicate f0.length (0 : ℚ)).length := by
    simp [hi]
  rw [if_pos hmem]

theorem zero_mem_qualifyingOffsets (f0 : List ℚ) (voicedMask : List Bool) (h : Int) (i : Nat)
    (hh : 0 ≤ h) (hi : i < f0.length) (hv : voicedMask.getD i false = true)
    (hp : 0 < f0.getD i 0) :
    (0 : Int) ∈ qualifyingOffsets f0 voicedMask h i := by
  unfold qualifyingOffsets
  rw [List.mem_filter]
  constructor
  · rw [List.mem_map]
    refine ⟨h.toNat, ?_, ?_⟩
    · rw [List.mem_range]; omega
    · omega
  · simp only [add_zero, Int.toNat_ofNat, decide_eq_true_eq]
    exact ⟨by omega, by omega, hv, hp⟩

theorem mem_qualifyingOffsets (f0 : List ℚ) (voicedMask : List Bool) (h : Int) (i : Nat)
    (j : Int) (hj : j ∈ qualifyingOffsets f0 voicedMask h i) :
    -h ≤ j ∧ j ≤ h ∧ 0 ≤ (i : Int) + j ∧ (i : Int) + j < (f0.length : Int) ∧
      voicedMask.getD ((i : Int) + j).toNat false = true ∧
      0 < f0.getD ((i : Int) + j).toNat 0 := by
  unfold qualifyingOffsets at hj
  rw [List.mem_filter, List.mem_map] at hj
  obtain ⟨⟨k, hk, rfl⟩, hq⟩ := hj
  rw [List.mem_range] at hk
  simp only [decide_eq_true_eq] at hq
  exact ⟨by omega, by omega, hq.1, hq.2.1, hq.2.2.1, hq.2.2.2⟩

theorem gaussWeight_arg_bounds (h j : Int) (hj1 : -h ≤ j) (hj2 : j ≤ h) :
    -(1 / 2 : ℚ) ≤ -(1 / 2) * (j : ℚ) ^ 2 / ((h : ℚ) ^ 2 + 1) ∧
    -(1 / 2) * (j : ℚ) ^ 2 / ((h : ℚ) ^ 2 + 1) ≤ 0 := by
  have hjj : (j : ℚ) ^ 2 ≤ (h : ℚ) ^ 2 := by
    have := mul_self_le_of_abs_le h j hj1 hj2
    have hc : ((j * j : Int) : ℚ) ≤ ((h * h : Int) : ℚ) := by exact_mod_cast this
    push_cast at hc
    nlinarith
  have hj0 : (0 : ℚ) ≤ (j : ℚ) ^ 2 := sq_nonneg _
  have hd : (0 : ℚ) < (h : ℚ) ^ 2 + 1 := by positivity
  constructor
  · rw [le_div_iff₀ hd]
    nlinarith
  · apply div_nonpos_of_nonpos_of_nonneg
    · nlinarith
    · exact le_of_lt hd

theorem transitionWeight_pos (expf : ℚ → ℚ) (h j : Int)
    (hexp : ∀ x, -(1 / 2) ≤ x → x ≤ 0 → 0 < expf x) (h0 : 0 ≤ h) (h1 : h ≤ 46340)
    (hj1 : -h ≤ j) (hj2 : j ≤ h) :
    0 < transitionWeight expf h j := by
  rw [transitionWeight_eq expf h j h0 h1 hj1 hj2]
  unfold gaussWeight
  obtain ⟨ha, hb⟩ := gaussWeight_arg_bounds h j hj1 hj2
  exact hexp _ ha hb

theorem halfWindow_bounds (w : Int) (hw : w ≤ 92681) :
    0 ≤ max w 1 / 2 ∧ max w 1 / 2 ≤ 46340 := by
  omega

theorem ite_window_eq_max (w : Int) : (if w < 1 then 1 else w) = max w 1 := by
  split_ifs with hc
  · rw [max_eq_right (by omega)]
  · rw [max_eq_left (by omega)]

theorem weightSum_pos (expf : ℚ → ℚ) (f0 : List ℚ) (voicedMask : List Bool) (h : Int) (i : Nat)
    (hexp : ∀ x, -(1 / 2) ≤ x → x ≤ 0 → 0 < expf x) (h0 : 0 ≤ h) (h1 : h ≤ 46340)
    (hi : i < f0.length) (hv : voicedMask.getD i false = true) (hp : 0 < f0.getD i 0) :
    0 < ((qualifyingOffsets f0 voicedMask h i).map (fun j => transitionWeight expf h j)).sum := by
  have hmem := zero_mem_qualifyingOffsets f0 voicedMask h i h0 hi hv hp
  apply List.sum_pos
  · intro x hx
    rw [List.mem_map] at hx
    obtain ⟨j, hj, rfl⟩ := hx
    obtain ⟨hj1, hj2, _⟩ := mem_qualifyingOffsets f0 voicedMask h i j hj
    exact transitionWeight_pos expf h j hexp h0 h1 hj1 hj2
  · intro hnil
    rw [List.map_eq_nil_iff] at hnil
    rw [hnil] at hmem
    cases hmem

/-- In the range of windows whose products of line 90 fit a 32-bit `int` (`w ≤ 92681`),
`smoothTransitions` equals its reference definition: a frame that is unvoiced or not positive
is returned unchanged, and a voiced frame with `f0[i] > 0` is replaced by
`(Σ weight(j) * f0[i+j]) / (Σ weight(j))` over the qualifying offsets, with
`weight(j) = exp(-0.5 * j² / (h² + 1))`.  The exponential enters through its positivity on
`[-1/2, 0]`, where the arguments lie. -/
theorem smoothTransitions_eq_ref_of_window_le (expf : ℚ → ℚ) (f0 : List ℚ)
    (voicedMask : List Bool) (w : Int) (i : Nat)
    (hexp : ∀ x, -(1 / 2) ≤ x → x ≤ 0 → 0 < expf x) (hw : w ≤ 92681)
    (hlen : f0.length = voicedMask.length) (hi : i < f0.length) :
    (smoothTransitions expf f0 voicedMask w).getD i 0 =
      smoothTransitionsRef expf f0 voicedMask w i := by
  rw [getD_smoothTransitions expf f0 voicedMask w i hlen hi]
  unfold smoothTransitionsRef
  dsimp only
  rw [ite_window_eq_max]
  obtain ⟨h0, h1⟩ := halfWindow_bounds w hw
  generalize max w 1 / 2 = h at h0 h1 ⊢
  by_cases hc : voicedMask.getD i false = false ∨ f0.getD i 0 ≤ 0
  · rw [if_pos hc, if_pos hc]
  · rw [if_neg hc, if_neg hc, weightedSums_eq]
    dsimp only
    have hv : voicedMask.getD i false = true := by
      cases hm : voicedMask.getD i false
      · exact absurd (Or.inl hm) hc
      · rfl
    have hp : 0 < f0.getD i 0 := by
      by_contra hn
      exact hc (Or.inr (not_lt.mp hn))
    rw [if_pos (weightSum_pos expf f0 voicedMask h i hexp h0 h1 hi hv hp)]
    have e1 : (qualifyingOffsets f0 voicedMask h i).map
        (fun j => transitionWeight expf h j * f0.getD ((i : Int) + j).toNat 0) =
        (qualifyingOffsets f0 voicedMask h i).map
        (fun j => gaussWeight expf h j * f0.getD ((i : Int) + j).toNat 0) := by
      apply List.map_congr_left
      intro j hj
      obtain ⟨hj1, hj2, _⟩ := mem_qualifyingOffsets f0 voicedMask h i j hj
      rw [transitionWeight_eq expf h j h0 h1 hj1 hj2]
    have e2 : (qualifyingOffsets f0 voicedMask h i).map (fun j => transitionWeight expf h j) =
        (qualifyingOffsets f0 voicedMask h i).map (fun j => gaussWeight expf h j) := by
      apply List.map_congr_left
      intro j hj
      obtain ⟨hj1, hj2, _⟩ := mem_qualifyingOffsets f0 voicedMask h i j hj
      rw [transitionWeight_eq expf h j h0 h1 hj1 hj2]
    rw [e1, e2]

theorem qualifyingOffsets_eq_clipped (f0 : List ℚ) (voicedMask : List Bool) (h : Int) (i : Nat)
    (hh : 0 ≤ h) (hi : i < f0.length) :
    qualifyingOffsets f0 voicedMask h i =
      ((List.range' (max 0 ((i : Int) - h)).toNat
          ((min ((f0.length : Int) - 1) ((i : Int) + h)).toNat + 1 -
            (max 0 ((i : Int) - h)).toNat)).filter
        (fun t => decide (voicedMask.getD t false = true ∧ 0 < f0.getD t 0))).map
        (fun (t : Nat) => (t : Int) - (i : Int)) := by
  unfold qualifyingOffsets
  rw [List.filter_map]
  obtain ⟨a, ha⟩ : ∃ a : Nat, a = (h - (i : Int)).toNat := ⟨_, rfl⟩
  obtain ⟨lo, hlo⟩ : ∃ lo : Nat, lo = (max 0 ((i : Int) - h)).toNat := ⟨_, rfl⟩
  obtain ⟨hi', hhi⟩ : ∃ x : Nat, x = (min ((f0.length : Int) - 1) ((i : Int) + h)).toNat :=
    ⟨_, rfl⟩
  obtain ⟨m, hm⟩ : ∃ m : Nat, m = (2 * h + 1).toNat := ⟨_, rfl⟩
  rw [← hlo, ← hhi, ← hm]
  have hsplit : List.range m =
      List.range' 0 a ++ (List.range' a (hi' + 1 - lo) ++
        List.range' (a + (hi' + 1 - lo)) (m - a - (hi' + 1 - lo))) := by
    have e := List.range'_append_1 0 a (m - a - (hi' + 1 - lo) + (hi' + 1 - lo))
    rw [Nat.zero_add] at e
    rw [List.range_eq_range', List.range'_append_1, e]
    congr 1
    omega
  rw [hsplit, List.filter_append, List.filter_append, List.map_append, List.map_append]
  have h1 : (List.range' 0 a).filter
      ((fun j => decide (0 ≤ (i : Int) + j ∧ (i : Int) + j < (f0.length : Int) ∧
        voicedMask.getD ((i : Int) + j).toNat false = true ∧
        0 < f0.getD ((i : Int) + j).toNat 0)) ∘ fun (k : Nat) => (k : Int) - h) = [] := by
    rw [List.filter_eq_nil_iff]
    intro k hk
    rw [List.mem_range'_1] at hk
    simp only [Function.comp_apply, decide_eq_true_eq, not_and]
    intro h0
    omega
  have h3 : (List.range' (a + (hi' + 1 - lo)) (m - a - (hi' + 1 - lo))).filter
      ((fun j => decide (0 ≤ (i : Int) + j ∧ (i : Int) + j < (f0.length : Int) ∧
        voicedMask.getD ((i : Int) + j).toNat false = true ∧
        0 < f0.getD ((i : Int) + j).toNat 0)) ∘ fun (k : Nat) => (k : Int) - h) = [] := by
    rw [List.filter_eq_nil_iff]
    intro k hk
    rw [List.mem_range'_1] at hk
    simp only [Function.comp_apply, decide_eq_true_eq, not_and]
    intro h0 h1
    omega
  rw [h1, h3, List.map_nil, List.append_nil, List.nil_append]
  rw [List.range'_eq_map_range a, List.range'_eq_map_range lo, List.filter_map,
    List.filter_map, List.map_map, List.map_map]
  have hidx : ∀ k ∈ List.range (hi' + 1 - lo),
      ((i : Int) + (((a + k : Nat) : Int) - h)).toNat = lo + k ∧
      0 ≤ (i : Int) + (((a + k : Nat) : Int) - h) ∧
      (i : Int) + (((a + k : Nat) : Int) - h) < (f0.length : Int) ∧
      ((a + k : Nat) : Int) - h = ((lo + k : Nat) : Int) - (i : Int) := by
    intro k hk
    rw [List.mem_range] at hk
    omega
  have hp : (List.range (hi' + 1 - lo)).filter
        (((fun j => decide (0 ≤ (i : Int) + j ∧ (i : Int) + j < (f0.length : Int) ∧
          voicedMask.getD ((i : Int) + j).toNat false = true ∧
          0 < f0.getD ((i : Int) + j).toNat 0)) ∘ fun (k : Nat) => (k : Int) - h) ∘
            fun x => a + x) =
      (List.range (hi' + 1 - lo)).filter
        ((fun t => decide (voicedMask.getD t false = true ∧ 0 < f0.getD t 0)) ∘
          fun x => lo + x) := by
    apply List.filter_congr
    intro k hk
    obtain ⟨e, hb1, hb2, _⟩ := hidx k hk
    simp only [Function.comp_apply, e, hb1, hb2, true_and]
  rw [hp]
  apply List.map_congr_left
  intro k hk
  rw [List.mem_filter] at hk
  simp only [Function.comp_apply]
  exact (hidx k hk.1).2.2.2

theorem qualifyingOffsets_pair :
    qualifyingOffsets [100, 140] [true, true] 65536 0 = [0, 1] := by
  rw [qualifyingOffsets_eq_clipped [100, 140] [true, true] 65536 0 (by norm_num) (by simp)]
  simp [List.range']

theorem transitionWeight_wrapped_zero (expf : ℚ → ℚ) :
    transitionWeight expf 65536 0 = expf 0 := by
  unfold transitionWeight wrapInt32
  norm_num

theorem transitionWeight_wrapped_one (expf : ℚ → ℚ) :
    transitionWeight expf 65536 1 = expf (-(1 / 2)) := by
  unfold transitionWeight wrapInt32
  norm_num

theorem gaussWeight_zero (expf : ℚ → ℚ) : gaussWeight expf 65536 0 = expf 0 := by
  unfold gaussWeight
  norm_num

theorem gaussWeight_one (expf : ℚ → ℚ) :
    gaussWeight expf 65536 1 = expf (-(1 / 2) / (2 ^ 32 + 1)) := by
  unfold gaussWeight
  norm_num

/-- C11: at window size `131072` the weights of the code are not those of the reference
definition.  `halfWindow` is `65536` and its square `2^32` wraps to `0` in `int`, so line 90
computes `exp(-0.5 * j * j / 1)` where the reference has `exp(-0.5 * j² / (2^32 + 1))`.  On
the contour `[100, 140]`, both frames voiced, frame 0 becomes
`(100 exp(0) + 140 exp(-1/2)) / (exp(0) + exp(-1/2))` in the code and
`(100 exp(0) + 140 exp(-1/(2 (2^32 + 1)))) / (exp(0) + exp(-1/(2 (2^32 + 1))))` in the
reference; for a positive function that is larger at `-1/(2 (2^32 + 1))` than at `-1/2`, as
the exponential is, the code lies strictly below the reference. -/
theorem smoothTransitions_weight_overflow (expf : ℚ → ℚ) (hexp : ∀ x, 0 < expf x)
    (hlt : expf (-(1 / 2)) < expf (-(1 / 2) / (2 ^ 32 + 1))) :
    (smoothTransitions expf [100, 140] [true, true] 131072).getD 0 0 =
      (100 * expf 0 + 140 * expf (-(1 / 2))) / (expf 0 + expf (-(1 / 2))) ∧
    smoothTransitionsRef expf [100, 140] [true, true] 131072 0 =
      (100 * expf 0 + 140 * expf (-(1 / 2) / (2 ^ 32 + 1))) /
        (expf 0 + expf (-(1 / 2) / (2 ^ 32 + 1))) ∧
    (smoothTransitions expf [100, 140] [true, true] 131072).getD 0 0 <
      smoothTransitionsRef expf [100, 140] [true, true] 131072 0 := by
  have ha := hexp 0
  have hb := hexp (-(1 / 2))
  have hc := hexp (-(1 / 2) / (2 ^ 32 + 1))
  have hcode : (smoothTransitions expf [100, 140] [true, true] 131072).getD 0 0 =
      (100 * expf 0 + 140 * expf (-(1 / 2))) / (expf 0 + expf (-(1 / 2))) := by
    rw [getD_smoothTransitions expf [100, 140] [true, true] 131072 0 rfl (by simp)]
    have hw : max (131072 : Int) 1 / 2 = 65536 := by norm_num
    rw [ite_window_eq_max, hw, weightedSums_eq, qualifyingOffsets_pair]
    simp only [List.map_cons, List.map_nil, List.sum_cons, List.sum_nil,
      transitionWeight_wrapped_zero, transitionWeight_wrapped_one]
    have hs : 0 < expf 0 + (expf (-(1 / 2)) + 0) := by linarith
    rw [if_pos hs]
    norm_num
    ring
  have href : smoothTransitionsRef expf [100, 140] [true, true] 131072 0 =
      (100 * expf 0 + 140 * expf (-(1 / 2) / (2 ^ 32 + 1))) /
        (expf 0 + expf (-(1 / 2) / (2 ^ 32 + 1))) := by
    unfold smoothTransitionsRef
    have hw : max (131072 : Int) 1 / 2 = 65536 := by norm_num
    rw [hw]
    dsimp only
    rw [qualifyingOffsets_pair]
    simp only [List.map_cons, List.map_nil, List.sum_cons, List.sum_nil,
      gaussWeight_zero, gaussWeight_one]
    norm_num
    ring
  refine ⟨hcode, href, ?_⟩
  rw [hcode, href, div_lt_div_iff₀ (by linarith) (by linarith)]
  nlinarith

/-- Witness for C11: with the positive function `x ↦ 1 / (1 + x²)`, which is larger at
`-1/(2 (2^32 + 1))` than at `-1/2`, the code gives `1060 / 9` at frame 0, below the
reference value. -/
theorem smoothTransitions_weight_overflow_witness :
    (smoothTransitions (fun x => 1 / (1 + x ^ 2)) [100, 140] [true, true] 131072).getD 0 0 =
      1060 / 9 ∧
    (smoothTransitions (fun x => 1 / (1 + x ^ 2)) [100, 140] [true, true] 131072).getD 0 0 <
      smoothTransitionsRef (fun x => 1 / (1 + x ^ 2)) [100, 140] [true, true] 131072 0 := by
  have h := smoothTransitions_weight_overflow (fun x => 1 / (1 + x ^ 2))
    (fun x => by positivity) (by norm_num)
  refine ⟨?_, h.2.2⟩
  rw [h.1]
  norm_num

/-! ## Running the pipeline twice -/

theorem removeOutliers_replicate (n : Nat) (c r : ℚ) :
    removeOutliers (List.replicate n c) r = List.replicate n c := by
  apply eq_of_getD_eq _ _ (length_removeOutliers _ _)
  intro i hi
  rw [length_removeOutliers, List.length_replicate] at hi
  rw [getD_removeOutliers]
  split_ifs with h1 h2
  · obtain ⟨h1a, _⟩ := h1
    rw [List.length_replicate] at h2
    rw [getD_replicate_ite, getD_replicate_ite, getD_replicate_ite, if_pos (by omega),
      if_pos h2.1, if_pos hi]
    ring
  · obtain ⟨h1a, _⟩ := h1
    rw [getD_replicate_ite, getD_replicate_ite, if_pos (by omega), if_pos hi]
  · rfl

theorem smoothTransitions_replicate (expf : ℚ → ℚ) (n : Nat) (c : ℚ) (voicedMask : List Bool)
    (w : Int) :
    smoothTransitions expf (List.replicate n c) voicedMask w = List.replicate n c := by
  by_cases hg : List.replicate n c = [] ∨ (List.replicate n c).length ≠ voicedMask.length
  · unfold smoothTransitions
    rw [if_pos hg]
  · have hlen : (List.replicate n c).length = voicedMask.length := by
      by_contra hc
      exact hg (Or.inr hc)
    apply eq_of_getD_eq _ _ (length_smoothTransitions _ _ _ _)
    intro i hi
    rw [length_smoothTransitions] at hi
    rw [getD_smoothTransitions expf _ voicedMask w i hlen hi, weightedSums_eq]
    dsimp only
    generalize (if w < 1 then 1 else w) / 2 = h
    rw [List.length_replicate] at hi
    have hci : (List.replicate n c).getD i 0 = c := by
      rw [getD_replicate_ite, if_pos hi]
    rw [hci]
    have hsum : ((qualifyingOffsets (List.replicate n c) voicedMask
          h i).map
        (fun j => transitionWeight expf h j *
          (List.replicate n c).getD ((i : Int) + j).toNat 0)).sum =
        ((qualifyingOffsets (List.replicate n c) voicedMask
          h i).map
        (fun j => transitionWeight expf h j)).sum * c := by
      rw [← List.sum_map_mul_right]
      congr 1
      apply List.map_congr_left
      intro j hj
      unfold qualifyingOffsets at hj
      rw [List.mem_filter] at hj
      have hb := hj.2
      simp only [decide_eq_true_eq, List.length_replicate] at hb
      obtain ⟨hb1, hb2, _, _⟩ := hb
      rw [getD_replicate_ite, if_pos (by omega)]
    rw [hsum]
    split_ifs with h1 h2
    · rfl
    · rw [mul_comm, mul_div_assoc, div_self (ne_of_gt h2), mul_one]
    · rfl

theorem findPrev_replicate (n : Nat) (c : ℚ) (voicedMask : List Bool) (s : Nat) :
    findPrev (List.replicate n c) voicedMask s = 0 ∨
      findPrev (List.replicate n c) voicedMask s = c := by
  induction s with
  | zero => left; rfl
  | succ s ih =>
    rw [findPrev_succ]
    split_ifs
    · rw [getD_replicate_ite]
      split_ifs
      · right; rfl
      · left; rfl
    · exact ih

theorem findNext_replicate (n : Nat) (c : ℚ) (voicedMask : List Bool) (e : Nat) :
    findNext (List.replicate n c) voicedMask e = 0 ∨
      findNext (List.replicate n c) voicedMask e = c := by
  unfold findNext
  cases (List.range' e ((List.replicate n c).length - e)).find?
      (voicedPositive (List.replicate n c) voicedMask) with
  | none => left; rfl
  | some j =>
    dsimp only
    rw [getD_replicate_ite]
    split_ifs
    · right; rfl
    · left; rfl

theorem fillGap_replicate (n : Nat) (c : ℚ) (gapStart gapEnd : Nat) :
    fillGap (List.replicate n c) c c gapStart gapEnd = List.replicate n c := by
  apply eq_of_getD_eq _ _ (length_fillGap _ _ _ _ _)
  intro k hk
  rw [length_fillGap, List.length_replicate] at hk
  rw [getD_fillGap, getD_replicate_ite, if_pos hk]
  split_ifs
  · unfold lerp
    ring
  · rfl

theorem gapStep_replicate (n : Nat) (c : ℚ) (voicedMask : List Bool) (maxGapFrames : Int)
    (st : GapState) (i : Nat) (h : st.interpolated = List.replicate n c) :
    (gapStep (List.replicate n c) voicedMask maxGapFrames st i).interpolated =
      List.replicate n c := by
  unfold gapStep
  dsimp only
  split_ifs with h1 h2 h3 h4
  · exact h
  · dsimp only
    obtain ⟨hp, hq⟩ := h4
    have hp' : findPrev (List.replicate n c) voicedMask st.gapStart = c := by
      rcases findPrev_replicate n c voicedMask st.gapStart with h0 | h0
      · rw [h0] at hp; exact absurd hp (lt_irrefl _)
      · exact h0
    have hq' : findNext (List.replicate n c) voicedMask i = c := by
      rcases findNext_replicate n c voicedMask i with h0 | h0
      · rw [h0] at hq; exact absurd hq (lt_irrefl _)
      · exact h0
    rw [hp', hq', h, fillGap_replicate]
  · exact h
  · exact h
  · exact h

theorem interpolateUnvoiced_replicate (n : Nat) (c : ℚ) (voicedMask : List Bool)
    (maxGapFrames : Int) :
    interpolateUnvoiced (List.replicate n c) voicedMask maxGapFrames = List.replicate n c := by
  unfold interpolateUnvoiced
  split_ifs with hg
  · rfl
  · have hloop : ∀ i, (gapLoop (List.replicate n c) voicedMask maxGapFrames i).interpolated =
        List.replicate n c := by
      intro i
      induction i with
      | zero => rfl
      | succ i ih =>
        rw [gapLoop_succ]
        exact gapStep_replicate n c voicedMask maxGapFrames _ i ih
    exact hloop _

theorem smoothF0_replicate (expf : ℚ → ℚ) (n : Nat) (c : ℚ) (voicedMask : List Bool) :
    smoothF0 expf (List.replicate n c) voicedMask = List.replicate n c := by
  unfold smoothF0
  split_ifs with h
  · rfl
  · dsimp only
    rw [removeOutliers_replicate, medianFilter_replicate, smoothTransitions_replicate,
      interpolateUnvoiced_replicate]

/-- C12 (counterexample): on the six-frame ramp `[100, 140, 190, 260, 360, 500]` marked
unvoiced throughout (no consecutive ratio exceeds `1.5`) the pipeline returns
`[140, 165, 190, 260, 310, 360]`, and run again on that output it returns
`[165, 177.5, 190, 260, 285, 310]`: the last frame moves by 50 Hz, whatever function stands
for the exponential. -/
theorem smoothF0_second_pass_moves_ramp :
    ([false, false, false, false, false, false] : List Bool).length =
      ([100, 140, 190, 260, 360, 500] : List ℚ).length ∧
    (∀ expf : ℚ → ℚ, smoothF0 expf [100, 140, 190, 260, 360, 500]
      [false, false, false, false, false, false] = [140, 165, 190, 260, 310, 360]) ∧
    (∀ expf : ℚ → ℚ, smoothF0 expf [140, 165, 190, 260, 310, 360]
      [false, false, false, false, false, false] = [165, 355 / 2, 190, 260, 285, 310]) ∧
    (∀ expf : ℚ → ℚ,
      |(smoothF0 expf (smoothF0 expf [100, 140, 190, 260, 360, 500]
          [false, false, false, false, false, false])
          [false, false, false, false, false, false]).getD 5 0 -
        (smoothF0 expf [100, 140, 190, 260, 360, 500]
          [false, false, false, false, false, false]).getD 5 0| = 50) := by
  have h1 : ∀ expf : ℚ → ℚ, smoothF0 expf [100, 140, 190, 260, 360, 500]
      [false, false, false, false, false, false] = [140, 165, 190, 260, 310, 360] := by
    intro expf
    have hr : removeOutliers [100, 140, 190, 260, 360, 500] (3 / 2) =
        [100, 140, 190, 260, 360, 500] := by
      simp [removeOutliers, outlierStep, List.range']
      norm_num
    have hm : medianFilter [100, 140, 190, 260, 360, 500] 5 =
        [140, 165, 190, 260, 310, 360] := by
      simp [medianFilter, medianOrKeep, windowValues, List.range_succ]
      norm_num
    have hs : smoothTransitions expf [140, 165, 190, 260, 310, 360]
        [false, false, false, false, false, false] 3 = [140, 165, 190, 260, 310, 360] := by
      simp [smoothTransitions, List.range_succ]
    have hi : interpolateUnvoiced [140, 165, 190, 260, 310, 360]
        [false, false, false, false, false, false] 5 = [140, 165, 190, 260, 310, 360] := by
      simp [interpolateUnvoiced, gapLoop, gapStep, List.range_succ]
    rw [smoothF0, if_neg (by simp)]
    dsimp only
    rw [hr, hm, hs, hi]
  have h2 : ∀ expf : ℚ → ℚ, smoothF0 expf [140, 165, 190, 260, 310, 360]
      [false, false, false, false, false, false] = [165, 355 / 2, 190, 260, 285, 310] := by
    intro expf
    have hr : removeOutliers [140, 165, 190, 260, 310, 360] (3 / 2) =
        [140, 165, 190, 260, 310, 360] := by
      simp [removeOutliers, outlierStep, List.range']
      norm_num
    have hm : medianFilter [140, 165, 190, 260, 310, 360] 5 =
        [165, 355 / 2, 190, 260, 285, 310] := by
      simp [medianFilter, medianOrKeep, windowValues, List.range_succ]
      norm_num
    have hs : smoothTransitions expf [165, 355 / 2, 190, 260, 285, 310]
        [false, false, false, false, false, false] 3 =
        [165, 355 / 2, 190, 260, 285, 310] := by
      simp [smoothTransitions, List.range_succ]
    have hi : interpolateUnvoiced [165, 355 / 2, 190, 260, 285, 310]
        [false, false, false, false, false, false] 5 =
        [165, 355 / 2, 190, 260, 285, 310] := by
      simp [interpolateUnvoiced, gapLoop, gapStep, List.range_succ]
    rw [smoothF0, if_neg (by simp)]
    dsimp only
    rw [hr, hm, hs, hi]
  refine ⟨rfl, h1, h2, ?_⟩
  intro expf
  rw [h1, h2]
  norm_num [abs_of_neg]

/-- C12 (amended): `smoothF0` is approximately idempotent on constant contours.  For `n`
copies of any value `c`, any mask and any tolerance `ε > 0`, running the pipeline again on
its own output changes every frame by less than `ε`:
`|smoothF0(smoothF0(f0, m), m)[i] - smoothF0(f0, m)[i]| < ε` for every index `i`. -/
theorem smoothF0_second_pass_within_tolerance (expf : ℚ → ℚ) (n : Nat) (c : ℚ)
    (voicedMask : List Bool) (ε : ℚ) (hε : 0 < ε) (i : Nat) :
    |(smoothF0 expf (smoothF0 expf (List.replicate n c) voicedMask) voicedMask).getD i 0 -
        (smoothF0 expf (List.replicate n c) voicedMask).getD i 0| < ε := by
  rw [smoothF0_replicate, smoothF0_replicate, sub_self, abs_zero]
  exact hε

/-- Witness for C12 (amended): four frames of 220 Hz, the third one unvoiced, tolerance
`1/1000`, frame 2. -/
theorem smoothF0_second_pass_within_tolerance_witness :
    |(smoothF0 (fun x => 1 / (1 + x ^ 2))
          (smoothF0 (fun x => 1 / (1 + x ^ 2)) (List.replicate 4 220)
            [true, true, false, true])
          [true, true, false, true]).getD 2 0 -
        (smoothF0 (fun x => 1 / (1 + x ^ 2)) (List.replicate 4 220)
          [true, true, false, true]).getD 2 0| < 1 / 1000 :=
  smoothF0_second_pass_within_tolerance (fun x => 1 / (1 + x ^ 2)) 4 220
    [true, true, false, true] (1 / 1000) (by norm_num) 2

/-! ## Voiced frames and the gap threshold -/

/-- C21: `interpolateUnvoiced` never rewrites a voiced frame.  For every contour, every mask
(of equal length or not) and every `maxGapFrames`, each frame `i` that the mask marks voiced
satisfies `interpolateUnvoiced(f0, m, maxGapFrames)[i] = f0[i]`. -/
theorem interpolateUnvoiced_keeps_voiced (f0 : List ℚ) (voicedMask : List Bool)
    (maxGapFrames : Int) (i : Nat) (hv : voicedMask.getD i false = true) :
    (interpolateUnvoiced f0 voicedMask maxGapFrames).getD i 0 = f0.getD i 0 ∧
    (interpolateUnvoiced f0 voicedMask maxGapFrames)[i]? = f0[i]? := by
  have h := getD_interpolateUnvoiced_voiced f0 voicedMask maxGapFrames i hv
  refine ⟨h, ?_⟩
  have hlen := length_interpolateUnvoiced f0 voicedMask maxGapFrames
  by_cases hi : i < f0.length
  · rw [List.getD_eq_getElem?_getD, List.getD_eq_getElem?_getD,
      List.getElem?_eq_getElem (by rw [hlen]; exact hi), List.getElem?_eq_getElem hi] at h
    rw [List.getElem?_eq_getElem (by rw [hlen]; exact hi), List.getElem?_eq_getElem hi]
    exact congrArg some h
  · rw [List.getElem?_eq_none (by rw [hlen]; omega), List.getElem?_eq_none (by omega)]

/-- Witness for C21: in `[100, 0, 0, 300]` with mask `[T, F, F, T]` the gap is filled and
the voiced frames 0 and 3 keep `100` and `300`. -/
theorem interpolateUnvoiced_keeps_voiced_witness :
    (interpolateUnvoiced [100, 0, 0, 300] [true, false, false, true] 5).getD 3 0 = 300 ∧
    (interpolateUnvoiced [100, 0, 0, 300] [true, false, false, true] 5).getD 0 0 = 100 ∧
    interpolateUnvoiced [100, 0, 0, 300] [true, false, false, true] 5 = [100, 100, 200, 300] := by
  refine ⟨?_, ?_, ?_⟩
  · exact (interpolateUnvoiced_keeps_voiced [100, 0, 0, 300] [true, false, false, true] 5 3
      rfl).1
  · exact (interpolateUnvoiced_keeps_voiced [100, 0, 0, 300] [true, false, false, true] 5 0
      rfl).1
  · simp [interpolateUnvoiced, gapLoop, gapStep, List.range_succ, toSizeT, findPrev, findNext,
      voicedPositive, fillGap, lerp, List.range']
    norm_num

theorem toSizeT_of_neg (x : Int) (h0 : x < 0) (h1 : -2 ^ 31 ≤ x) :
    (toSizeT x : Int) = 2 ^ 64 + x := by
  unfold toSizeT
  omega

theorem gapLoop_zero_threshold (f0 : List ℚ) (voicedMask : List Bool) (i : Nat)
    (hi : i ≤ f0.length) :
    (gapLoop f0 voicedMask 0 i).interpolated = f0 := by
  induction i with
  | zero => rfl
  | succ i ih =>
    have hprev := ih (by omega)
    have inv := gapInv_gapLoop f0 voicedMask 0 i (by omega)
    rw [gapLoop_succ]
    unfold gapStep
    dsimp only
    split_ifs with h1 h2 h3 h4
    · exact hprev
    · exfalso
      have hlt := inv.open_lt h2.2
      have h0 : toSizeT 0 = 0 := by decide
      rw [h0] at h3
      omega
    · exact hprev
    · exact hprev
    · exact hprev

theorem interpolateUnvoiced_zero_threshold (f0 : List ℚ) (voicedMask : List Bool) :
    interpolateUnvoiced f0 voicedMask 0 = f0 := by
  unfold interpolateUnvoiced
  split_ifs with h
  · rfl
  · exact gapLoop_zero_threshold f0 voicedMask f0.length (Nat.le_refl _)

/-- C24: a negative `maxGapFrames` does not disable gap filling.  The threshold is compared
after conversion to `size_t` (value modulo `2^64`), so for every `int` `maxGapFrames < 0`
each interior gap `[s, e)` with positive values `p` at frame `s - 1` and `q` at frame `e`
(both voiced, the gap being maximal) is filled whatever its length: frame `s + k` becomes
`p * (1 - k/g) + q * (k/g)` with `g = e - s`.  With `maxGapFrames = 0` no gap is filled and
the contour is returned unchanged.  The contour has fewer than `2^62` frames. -/
theorem interpolateUnvoiced_negative_threshold (f0 : List ℚ) (voicedMask : List Bool)
    (hlen : f0.length = voicedMask.length) (hsize : f0.length < 2 ^ 62) :
    (∀ (maxGapFrames : Int) (s e k : Nat) (p q : ℚ),
      maxGapFrames < 0 → -2 ^ 31 ≤ maxGapFrames →
      IsGap voicedMask s e → 0 < s → e < f0.length →
      f0.getD (s - 1) 0 = p → 0 < p → f0.getD e 0 = q → 0 < q → k < e - s →
      (interpolateUnvoiced f0 voicedMask maxGapFrames).getD (s + k) 0 =
        p * (1 - (k : ℚ) / ((e - s : Nat) : ℚ)) + q * ((k : ℚ) / ((e - s : Nat) : ℚ))) ∧
    interpolateUnvoiced f0 voicedMask 0 = f0 := by
  refine ⟨?_, interpolateUnvoiced_zero_threshold f0 voicedMask⟩
  intro maxGapFrames s e k p q hneg hint hgap hs he hp hp0 hq hq0 hk
  rw [getD_interpolateUnvoiced_gap f0 voicedMask maxGapFrames s e (s + k) hlen hgap
    (by omega) (by omega), if_pos he]
  obtain ⟨hse, hen, hall, hsv, hev⟩ := hgap
  have hmprev : voicedMask.getD (s - 1) false = true := by
    rcases hsv with h0 | h0
    · omega
    · exact h0
  have hmnext : voicedMask.getD e false = true := by
    rcases hev with h0 | h0
    · omega
    · exact h0
  have hprev : findPrev f0 voicedMask s = p := by
    rw [findPrev_of_nearest f0 voicedMask s (s - 1) (by omega)
      (by simp only [voicedPositive, hmprev, hp, hp0, decide_True, Bool.and_self])
      (fun j h1 h2 => by omega), hp]
  have hnext : findNext f0 voicedMask e = q := by
    rw [findNext_of_nearest f0 voicedMask 0 e e rfl he
      (by simp only [voicedPositive, hmnext, hq, hq0, decide_True, Bool.and_self])
      (fun j h1 h2 => by omega), hq]
  have hsz : e - s ≤ toSizeT maxGapFrames := by
    have hcast := toSizeT_of_neg maxGapFrames hneg hint
    have h62 : (2 : Nat) ^ 62 = 4611686018427387904 := by norm_num
    omega
  unfold gapValue
  rw [if_pos ⟨hsz, hs, by rw [hprev]; exact hp0, by rw [hnext]; exact hq0⟩, hprev, hnext]
  unfold lerp
  dsimp only
  rw [Nat.add_sub_cancel_left]

/-- Witness for C24: the 6-frame gap between two voiced 100 Hz frames, left unfilled with
`maxGapFrames = 5`, is filled with `maxGapFrames = -1`, and `maxGapFrames = 0` leaves the
one-frame gap of `[100, 0, 100]` unfilled. -/
theorem interpolateUnvoiced_negative_threshold_witness :
    (interpolateUnvoiced [100, 0, 0, 0, 0, 0, 0, 100]
      [true, false, false, false, false, false, false, true] (-1)).getD (1 + 3) 0 = 100 ∧
    interpolateUnvoiced [100, 0, 100] [true, false, true] 0 = [100, 0, 100] := by
  constructor
  · rw [(interpolateUnvoiced_negative_threshold [100, 0, 0, 0, 0, 0, 0, 100]
      [true, false, false, false, false, false, false, true] rfl (by norm_num)).1 (-1) 1 7 3
      100 100 (by decide) (by decide) (by decide) (by decide) (by decide) rfl (by norm_num)
      rfl (by norm_num) (by decide)]
    norm_num
  · exact (interpolateUnvoiced_negative_threshold [100, 0, 100] [true, false, true] rfl
      (by norm_num)).2

/-! ## Bounds of the voiced-aware smoothing -/

theorem foldl_min_le (l : List ℚ) (d : ℚ) :
    l.foldl min d ≤ d ∧ ∀ x ∈ l, l.foldl min d ≤ x := by
  induction l generalizing d with
  | nil => simp
  | cons a rest ih =>
    rw [List.foldl_cons]
    obtain ⟨h1, h2⟩ := ih (min d a)
    refine ⟨le_trans h1 (min_le_left d a), ?_⟩
    intro x hx
    rw [List.mem_cons] at hx
    rcases hx with hx | hx
    · rw [hx]; exact le_trans h1 (min_le_right d a)
    · exact h2 x hx

theorem le_foldl_max (l : List ℚ) (d : ℚ) :
    d ≤ l.foldl max d ∧ ∀ x ∈ l, x ≤ l.foldl max d := by
  induction l generalizing d with
  | nil => simp
  | cons a rest ih =>
    rw [List.foldl_cons]
    obtain ⟨h1, h2⟩ := ih (max d a)
    refine ⟨le_trans (le_max_left d a) h1, ?_⟩
    intro x hx
    rw [List.mem_cons] at hx
    rcases hx with hx | hx
    · rw [hx]; exact le_trans (le_max_right d a) h1
    · exact h2 x hx

theorem lt_foldl_min (l : List ℚ) (c d : ℚ) (hd : c < d) (hl : ∀ x ∈ l, c < x) :
    c < l.foldl min d := by
  induction l generalizing d with
  | nil => exact hd
  | cons a rest ih =>
    rw [List.foldl_cons]
    exact ih (min d a) (lt_min hd (hl a (List.mem_cons_self a rest)))
      (fun x hx => hl x (List.mem_cons_of_mem a hx))

theorem weighted_sum_bounds (l : List Int) (wt v : Int → ℚ) (lo hi : ℚ)
    (hw : ∀ j ∈ l, 0 ≤ wt j) (hlo : ∀ j ∈ l, lo ≤ v j) (hhi : ∀ j ∈ l, v j ≤ hi) :
    lo * (l.map wt).sum ≤ (l.map (fun j => wt j * v j)).sum ∧
    (l.map (fun j => wt j * v j)).sum ≤ hi * (l.map wt).sum := by
  induction l with
  | nil => simp
  | cons a rest ih =>
    obtain ⟨h1, h2⟩ := ih (fun j hj => hw j (List.mem_cons_of_mem a hj))
      (fun j hj => hlo j (List.mem_cons_of_mem a hj))
      (fun j hj => hhi j (List.mem_cons_of_mem a hj))
    have hwa := hw a (List.mem_cons_self a rest)
    have hla := hlo a (List.mem_cons_self a rest)
    have hha := hhi a (List.mem_cons_self a rest)
    simp only [List.map_cons, List.sum_cons]
    constructor
    · have : lo * wt a ≤ wt a * v a := by
        rw [mul_comm lo]; exact mul_le_mul_of_nonneg_left hla hwa
      linarith
    · have : wt a * v a ≤ hi * wt a := by
        rw [mul_comm hi]; exact mul_le_mul_of_nonneg_left hha hwa
      linarith

/-- In the range of windows whose products of line 90 fit a 32-bit `int` (`w ≤ 92681`) and
in exact arithmetic, at every voiced frame `i` with `f0[i] > 0`: the weight sum of lines
80-94 is strictly positive, so the output is `sum / weightSum`; the output lies between the
minimum and the maximum of the voiced positive input values in the window around `i`; hence
it is positive.  The exponential enters through its positivity on `[-1/2, 0]`. -/
theorem smoothTransitions_within_window_of_window_le (expf : ℚ → ℚ) (f0 : List ℚ)
    (voicedMask : List Bool) (w : Int) (i : Nat)
    (hexp : ∀ x, -(1 / 2) ≤ x → x ≤ 0 → 0 < expf x) (hw : w ≤ 92681)
    (hlen : f0.length = voicedMask.length)
    (hi : i < f0.length) (hv : voicedMask.getD i false = true) (hp : 0 < f0.getD i 0) :
    0 < (weightedSums expf f0 voicedMask (max w 1 / 2) i).2 ∧
    (smoothTransitions expf f0 voicedMask w).getD i 0 =
      (weightedSums expf f0 voicedMask (max w 1 / 2) i).1 /
        (weightedSums expf f0 voicedMask (max w 1 / 2) i).2 ∧
    windowMin f0 voicedMask (max w 1 / 2) i ≤ (smoothTransitions expf f0 voicedMask w).getD i 0 ∧
    (smoothTransitions expf f0 voicedMask w).getD i 0 ≤ windowMax f0 voicedMask (max w 1 / 2) i ∧
    0 < (smoothTransitions expf f0 voicedMask w).getD i 0 := by
  obtain ⟨h0, h1⟩ := halfWindow_bounds w hw
  rw [getD_smoothTransitions expf f0 voicedMask w i hlen hi, ite_window_eq_max]
  generalize max w 1 / 2 = h at h0 h1 ⊢
  have hc : ¬ (voicedMask.getD i false = false ∨ f0.getD i 0 ≤ 0) := by
    rintro (hc | hc)
    · rw [hv] at hc; cases hc
    · exact absurd hp (not_lt.mpr hc)
  rw [if_neg hc, weightedSums_eq]
  dsimp only
  have hpos := weightSum_pos expf f0 voicedMask h i hexp h0 h1 hi hv hp
  rw [if_pos hpos]
  have hminle : ∀ j ∈ qualifyingOffsets f0 voicedMask h i,
      windowMin f0 voicedMask h i ≤ f0.getD ((i : Int) + j).toNat 0 := by
    intro j hj
    exact (foldl_min_le _ _).2 _ (List.mem_map.mpr ⟨j, hj, rfl⟩)
  have hlemax : ∀ j ∈ qualifyingOffsets f0 voicedMask h i,
      f0.getD ((i : Int) + j).toNat 0 ≤ windowMax f0 voicedMask h i := by
    intro j hj
    exact (le_foldl_max _ _).2 _ (List.mem_map.mpr ⟨j, hj, rfl⟩)
  obtain ⟨hb1, hb2⟩ := weighted_sum_bounds (qualifyingOffsets f0 voicedMask h i)
    (fun j => transitionWeight expf h j) (fun j => f0.getD ((i : Int) + j).toNat 0)
    (windowMin f0 voicedMask h i) (windowMax f0 voicedMask h i)
    (fun j hj => by
      obtain ⟨hj1, hj2, _⟩ := mem_qualifyingOffsets f0 voicedMask h i j hj
      exact le_of_lt (transitionWeight_pos expf h j hexp h0 h1 hj1 hj2))
    hminle hlemax
  have hminpos : 0 < windowMin f0 voicedMask h i := by
    apply lt_foldl_min _ _ _ hp
    intro x hx
    rw [List.mem_map] at hx
    obtain ⟨j, hj, rfl⟩ := hx
    exact (mem_qualifyingOffsets f0 voicedMask h i j hj).2.2.2.2.2
  have hlow : windowMin f0 voicedMask h i ≤
      ((qualifyingOffsets f0 voicedMask h i).map
        (fun j => transitionWeight expf h j * f0.getD ((i : Int) + j).toNat 0)).sum /
      ((qualifyingOffsets f0 voicedMask h i).map
        (fun j => transitionWeight expf h j)).sum := by
    rw [le_div_iff₀ hpos]
    exact hb1
  have hhigh : ((qualifyingOffsets f0 voicedMask h i).map
        (fun j => transitionWeight expf h j * f0.getD ((i : Int) + j).toNat 0)).sum /
      ((qualifyingOffsets f0 voicedMask h i).map
        (fun j => transitionWeight expf h j)).sum ≤
      windowMax f0 voicedMask h i := by
    rw [div_le_iff₀ hpos]
    exact hb2
  exact ⟨hpos, rfl, hlow, hhigh, lt_of_lt_of_le hminpos hlow⟩

end F0Smoother

namespace SinusoidalSmoothing

/-! ## Sinusoidal smoothing kernel -/

theorem foldl_fill (f : Nat → ℚ) (N n : Nat) (hn : n ≤ N) :
    ((List.range n).foldl
      (fun (acc : List ℚ × ℚ) (i : Nat) =>
        (acc.1.set i (f i), acc.2 + (acc.1.set i (f i)).getD i 0))
      (List.replicate N 0, 0)).1.length = N ∧
    (∀ j, j < n → ((List.range n).foldl
      (fun (acc : List ℚ × ℚ) (i : Nat) =>
        (acc.1.set i (f i), acc.2 + (acc.1.set i (f i)).getD i 0))
      (List.replicate N 0, 0)).1.getD j 0 = f j) ∧
    ((List.range n).foldl
      (fun (acc : List ℚ × ℚ) (i : Nat) =>
        (acc.1.set i (f i), acc.2 + (acc.1.set i (f i)).getD i 0))
      (List.replicate N 0, 0)).2 = ((List.range n).map f).sum := by
  induction n with
  | zero => simp
  | succ n ih =>
    obtain ⟨h1, h2, h3⟩ := ih (by omega)
    rw [List.range_succ, List.foldl_append, List.foldl_cons, List.foldl_nil]
    dsimp only
    refine ⟨?_, ?_, ?_⟩
    · rw [List.length_set, h1]
    · intro j hj
      rw [F0Smoother.getD_set_ite, h1]
      by_cases hjn : n = j
      · subst hjn
        rw [if_pos ⟨rfl, by omega⟩]
      · rw [if_neg (fun hc => hjn hc.1)]
        exact h2 j (by omega)
    · rw [F0Smoother.getD_set_ite, h1, if_pos ⟨rfl, by omega⟩, h3, List.map_append,
        List.sum_append]
      simp

theorem fillKernel_eq (sinf : ℚ → ℚ) (K : Int) :
    fillKernel sinf K =
      ((List.range K.toNat).map (rawWeight sinf K),
        ((List.range K.toNat).map (rawWeight sinf K)).sum) := by
  have hpt : ∀ i : Nat, sinf (PI * ((i : ℚ) * (1 / ((K - 1 : Int) : ℚ)))) =
      rawWeight sinf K i := by
    intro i
    unfold rawWeight
    congr 1
    push_cast
    ring
  obtain ⟨h1, h2, h3⟩ := foldl_fill
    (fun (i : Nat) => sinf (PI * ((i : ℚ) * (1 / ((K - 1 : Int) : ℚ))))) K.toNat K.toNat
    (Nat.le_refl _)
  unfold fillKernel
  dsimp only at h1 h2 h3 ⊢
  refine Prod.ext ?_ ?_
  · dsimp only
    apply F0Smoother.eq_of_getD_eq
    · rw [h1]; simp
    · intro i hi
      rw [h1] at hi
      rw [h2 i hi, hpt, List.getD_eq_getElem?_getD, List.getElem?_map,
        List.getElem?_range hi]
      rfl
  · dsimp only
    rw [h3]
    congr 1
    apply List.map_congr_left
    intro i _
    exact hpt i

theorem construct_of_gt (sinf : ℚ → ℚ) (K : Int) (hK : 1 < K) :
    construct sinf K =
      { kernel_size := K,
        kernel := ((List.range K.toNat).map (rawWeight sinf K)).map
          (fun val => val * (1 / ((List.range K.toNat).map (rawWeight sinf K)).sum)) } := by
  unfold construct
  dsimp only
  have hmax : max K 1 = K := max_eq_left (by omega)
  rw [hmax, if_pos hK, fillKernel_eq]

theorem construct_of_le (sinf : ℚ → ℚ) (K : Int) (hK : K ≤ 1) :
    construct sinf K = { kernel_size := 1, kernel := [1] } := by
  unfold construct
  dsimp only
  have hmax : max K 1 = 1 := max_eq_right hK
  rw [hmax, if_neg (by decide)]

theorem rawWeight_total_pos (sinf : ℚ → ℚ) (K : Int) (hK : 1 < K)
    (hnonneg : ∀ x, 0 ≤ x → x ≤ PI → 0 ≤ sinf x) (hpos : 0 < sinf PI) :
    0 < ((List.range K.toNat).map (rawWeight sinf K)).sum := by
  obtain ⟨m, hm⟩ : ∃ m : Nat, K.toNat = m + 1 := ⟨K.toNat - 1, by omega⟩
  have hKm : (K : ℚ) - 1 = (m : ℚ) := by
    have : K = (m : Int) + 1 := by omega
    rw [this]; push_cast; ring
  have hm0 : (0 : ℚ) < (m : ℚ) := by
    have : 0 < m := by omega
    exact_mod_cast this
  have hPI : 0 ≤ PI := by unfold PI; norm_num
  rw [hm, List.range_succ, List.map_append, List.sum_append, List.map_singleton,
    List.sum_singleton]
  have hlast : rawWeight sinf K m = sinf PI := by
    unfold rawWeight
    rw [hKm, mul_div_assoc, div_self (ne_of_gt hm0), mul_one]
  rw [hlast]
  have hrest : 0 ≤ ((List.range m).map (rawWeight sinf K)).sum := by
    apply List.sum_nonneg
    intro x hx
    rw [List.mem_map] at hx
    obtain ⟨j, hj, rfl⟩ := hx
    rw [List.mem_range] at hj
    unfold rawWeight
    rw [hKm]
    have hj0 : (0 : ℚ) ≤ (j : ℚ) := by exact_mod_cast Nat.zero_le j
    have hjm : (j : ℚ) ≤ (m : ℚ) := by exact_mod_cast (Nat.le_of_lt hj)
    apply hnonneg
    · apply div_nonneg (mul_nonneg hPI hj0) (le_of_lt hm0)
    · rw [div_le_iff₀ hm0]
      exact mul_le_mul_of_nonneg_left hjm hPI
  linarith

theorem kernel_sum_construct (sinf : ℚ → ℚ) (K : Int)
    (hnonneg : ∀ x, 0 ≤ x → x ≤ PI → 0 ≤ sinf x) (hpos : 0 < sinf PI) :
    (construct sinf K).kernel.sum = 1 := by
  by_cases hK : 1 < K
  · rw [construct_of_gt sinf K hK]
    dsimp only
    have htot := rawWeight_total_pos sinf K hK hnonneg hpos
    rw [List.sum_map_mul_right, List.map_id', mul_one_div, div_self (ne_of_gt htot)]
  · rw [construct_of_le sinf K (by omega)]
    simp

theorem foldl_push (a : ℚ) (n : Nat) (init : List ℚ) :
    (List.range n).foldl (fun acc _ => acc ++ [a]) init = init ++ List.replicate n a := by
  induction n with
  | zero => simp
  | succ n ih =>
    rw [List.range_succ, List.foldl_append, List.foldl_cons, List.foldl_nil, ih,
      List.replicate_succ', List.append_assoc]

theorem foldl_collect (g : Nat → ℚ) (n : Nat) :
    (List.range n).foldl (fun output (i : Nat) => output ++ [g i]) [] = (List.range n).map g := by
  induction n with
  | zero => rfl
  | succ n ih =>
    rw [List.range_succ, List.foldl_append, List.foldl_cons, List.foldl_nil, ih,
      List.map_append, List.map_singleton]

theorem foldl_add_eq_sum (a : Nat → ℚ) (n : Nat) :
    (List.range n).foldl (fun acc (j : Nat) => acc + a j) 0 = ((List.range n).map a).sum := by
  induction n with
  | zero => rfl
  | succ n ih =>
    rw [List.range_succ, List.foldl_append, List.foldl_cons, List.foldl_nil, ih,
      List.map_append, List.sum_append, List.map_singleton, List.sum_singleton]

theorem convSum_eq (padded_x kernel : List ℚ) (K : Int) (i : Nat) :
    convSum padded_x kernel K i = convolutionRef kernel padded_x K i := by
  unfold convSum convolutionRef
  rw [foldl_add_eq_sum]
  congr 1
  apply List.map_congr_left
  intro j _
  ring

theorem getD_zero_eq_headD (x : List ℚ) : x.getD 0 0 = x.headD 0 := by
  cases x <;> rfl

theorem getD_last_eq_getLastD (x : List ℚ) : x.getD (x.length - 1) 0 = x.getLastD 0 := by
  induction x with
  | nil => rfl
  | cons a rest ih =>
    cases rest with
    | nil => rfl
    | cons b rest2 =>
      simp only [List.length_cons, Nat.add_sub_cancel, List.getD_cons_succ,
        List.getLastD_cons] at ih ⊢
      exact ih

theorem forward_eq_map (s : SinusoidalSmoothing) (x : List ℚ) (hK : 2 ≤ s.kernel_size)
    (hx : x ≠ []) :
    forward s x =
      (List.range x.length).map
        (fun i => convolutionRef s.kernel (edgePadded s.kernel_size x) s.kernel_size i) := by
  unfold forward
  rw [if_neg (by omega), if_neg hx]
  dsimp only
  rw [foldl_push, foldl_push, List.nil_append, Int.tdiv_eq_ediv (by omega) (by decide),
    getD_zero_eq_headD, getD_last_eq_getLastD, Int.toNat_ofNat]
  have hfun : (fun output (i : Nat) => output ++
      [convSum (List.replicate ((s.kernel_size - 1) / 2).toNat (x.headD 0) ++ x ++
        List.replicate (s.kernel_size - 1 - (s.kernel_size - 1) / 2).toNat (x.getLastD 0))
        s.kernel s.kernel_size i]) =
      (fun output (i : Nat) => output ++
        [convolutionRef s.kernel (edgePadded s.kernel_size x) s.kernel_size i]) := by
    funext output i
    rw [convSum_eq]
    rfl
  rw [hfun, foldl_collect]

theorem getD_map_range (g : Nat → ℚ) (n i : Nat) (hi : i < n) :
    ((List.range n).map g).getD i 0 = g i := by
  rw [List.getD_eq_getElem?_getD, List.getElem?_map, List.getElem?_range hi]
  rfl

theorem map_getD_range (l : List ℚ) :
    (List.range l.length).map (fun j => l.getD j 0) = l := by
  apply F0Smoother.eq_of_getD_eq
  · simp
  · intro i hi
    rw [List.length_map, List.length_range] at hi
    rw [getD_map_range _ _ _ hi]

theorem kernel_size_construct (sinf : ℚ → ℚ) (K : Int) :
    (construct sinf K).kernel_size = max K 1 ∧
    (construct sinf K).kernel.length = (max K 1).toNat := by
  by_cases hK : 1 < K
  · rw [construct_of_gt sinf K hK, max_eq_left (by omega)]
    simp
  · rw [construct_of_le sinf K (by omega), max_eq_right (by omega)]
    simp

theorem edgePadded_replicate (K : Int) (n : Nat) (c : ℚ) (hn : 0 < n) (i : Nat)
    (hi : i < n + (K - 1).toNat) (hK : 1 ≤ K) :
    (edgePadded K (List.replicate n c)).getD i 0 = c := by
  unfold edgePadded
  have hhead : (List.replicate n c).headD 0 = c := by
    cases n with
    | zero => omega
    | succ m => rfl
  have hlast : (List.replicate n c).getLastD 0 = c := by
    rw [← getD_last_eq_getLastD, List.length_replicate, F0Smoother.getD_replicate_ite,
      if_pos (by omega)]
  rw [hhead, hlast, List.append_replicate_replicate, List.append_replicate_replicate,
    F0Smoother.getD_replicate_ite, if_pos (by omega)]

/-- C13: kernel sum property.  For every kernel size `K` (so for every `K ≥ 1`) the weights
stored by the constructor sum to 1: they are the single weight `1` when `K ≤ 1`, and the
values `sin(PI · i / (K - 1))`, `i = 0 … K-1`, divided by their total when `K > 1`.  The sine enters
through two facts, both true of it because the constant `PI` of the source lies below π: it
is not negative on `[0, PI]` and it is positive at `PI`. -/
theorem kernel_weights_sum_one (sinf : ℚ → ℚ) (K : Int)
    (hnonneg : ∀ x, 0 ≤ x → x ≤ PI → 0 ≤ sinf x) (hpos : 0 < sinf PI) :
    (construct sinf K).kernel.sum = 1 ∧
    (K ≤ 1 → (construct sinf K).kernel = [1]) ∧
    (1 < K → (construct sinf K).kernel =
      (List.range K.toNat).map
        (fun i => rawWeight sinf K i / ((List.range K.toNat).map (rawWeight sinf K)).sum)) := by
  refine ⟨kernel_sum_construct sinf K hnonneg hpos, ?_, ?_⟩
  · intro h1
    rw [construct_of_le sinf K h1]
  · intro h1
    rw [construct_of_gt sinf K h1]
    dsimp only
    rw [List.map_map]
    apply List.map_congr_left
    intro i _
    rw [Function.comp_apply, mul_one_div]

/-- Witness for C13: kernel size 3 with the parabola `x ↦ x (4 - x)`, which is not negative
on `[0, PI]` and positive at `PI`, in place of the sine. -/
theorem kernel_weights_sum_one_witness :
    (construct (fun x => x * (4 - x)) 3).kernel.sum = 1 :=
  (kernel_weights_sum_one (fun x => x * (4 - x)) 3
    (fun x h0 h1 => by
      have h4 : PI ≤ 4 := by unfold PI; norm_num
      exact mul_nonneg h0 (by linarith))
    (by unfold PI; norm_num)).1

/-- C14: constant-signal invariance of the kernel smoother.  For every kernel size `K`,
every value `c` and every length `n`, `forward` applied to `n` copies of `c` returns `n`
copies of `c` (with the sine not negative on `[0, PI]` and positive at `PI`). -/
theorem forward_constant (sinf : ℚ → ℚ) (K : Int) (n : Nat) (c : ℚ)
    (hnonneg : ∀ x, 0 ≤ x → x ≤ PI → 0 ≤ sinf x) (hpos : 0 < sinf PI) :
    forward (construct sinf K) (List.replicate n c) = List.replicate n c := by
  by_cases hK : 1 < K
  · cases n with
    | zero =>
      unfold forward
      rw [(kernel_size_construct sinf K).1, max_eq_left (by omega), if_neg (by omega)]
      simp
    | succ m =>
      have hks : (construct sinf K).kernel_size = K := by
        rw [(kernel_size_construct sinf K).1, max_eq_left (by omega)]
      have hkl : (construct sinf K).kernel.length = K.toNat := by
        rw [(kernel_size_construct sinf K).2, max_eq_left (by omega)]
      rw [forward_eq_map _ _ (by rw [hks]; omega) (by simp), hks, List.length_replicate]
      rw [List.eq_replicate_iff]
      refine ⟨by simp, ?_⟩
      intro b hb
      rw [List.mem_map] at hb
      obtain ⟨i, hi, rfl⟩ := hb
      rw [List.mem_range] at hi
      unfold convolutionRef
      have hterm : (List.range K.toNat).map
          (fun j => (construct sinf K).kernel.getD j 0 *
            (edgePadded K (List.replicate (m + 1) c)).getD (i + j) 0) =
          (List.range K.toNat).map (fun j => (construct sinf K).kernel.getD j 0 * c) := by
        apply List.map_congr_left
        intro j hj
        rw [List.mem_range] at hj
        rw [edgePadded_replicate K (m + 1) c (by omega) (i + j) (by omega) (by omega)]
      rw [hterm, List.sum_map_mul_right, ← hkl, map_getD_range,
        kernel_sum_construct sinf K hnonneg hpos, one_mul]
  · rw [construct_of_le sinf K (by omega)]
    unfold forward
    rw [if_pos rfl]

/-- Witness for C14: kernel size 5 on four copies of 7, with the parabola `x ↦ x (4 - x)` in
place of the sine. -/
theorem forward_constant_witness :
    forward (construct (fun x => x * (4 - x)) 5) (List.replicate 4 7) = List.replicate 4 7 :=
  forward_constant (fun x => x * (4 - x)) 5 4 7
    (fun x h0 h1 => by
      have h4 : PI ≤ 4 := by unfold PI; norm_num
      exact mul_nonneg h0 (by linarith))
    (by unfold PI; norm_num)

/-- C16: `forward` is a same-length edge-padded convolution.  For every kernel size `K ≥ 2`
and every non-empty input `x` of length `L`, the output has length `L` and
`output[i] = Σ_{j = 0..K-1} w[j] * p[i + j]`, where `w` is the stored kernel and `p` is `x`
preceded by `⌊(K-1)/2⌋` copies of `x[0]` and followed by `(K-1) - ⌊(K-1)/2⌋` copies of
`x[L-1]`; for the empty input the output is empty. -/
theorem forward_same_convolution (sinf : ℚ → ℚ) (K : Int) (x : List ℚ) (hK : 2 ≤ K)
    (hx : x ≠ []) :
    (forward (construct sinf K) x).length = x.length ∧
    (∀ i, i < x.length →
      (forward (construct sinf K) x).getD i 0 =
        convolutionRef (construct sinf K).kernel (edgePadded K x) K i) ∧
    forward (construct sinf K) [] = [] := by
  have hks : (construct sinf K).kernel_size = K := by
    rw [(kernel_size_construct sinf K).1, max_eq_left (by omega)]
  have hmap := forward_eq_map (construct sinf K) x (by rw [hks]; exact hK) hx
  rw [hks] at hmap
  refine ⟨?_, ?_, ?_⟩
  · rw [hmap, List.length_map, List.length_range]
  · intro i hi
    rw [hmap, getD_map_range _ _ _ hi]
  · unfold forward
    rw [hks, if_neg (by omega), if_pos rfl]

/-- Witness for C16: kernel size 2 stores the weights `[0, 1]`, pads only on the right, and
maps `[1, 2, 3]` to `[2, 3, 3]`. -/
theorem forward_same_convolution_witness :
    (forward (construct (fun x => x * (4 - x)) 2) [1, 2, 3]).length = 3 ∧
    (forward (construct (fun x => x * (4 - x)) 2) [1, 2, 3]).getD 0 0 = 2 := by
  obtain ⟨h1, h2, _⟩ := forward_same_convolution (fun x => x * (4 - x)) 2 [1, 2, 3]
    (by decide) (by simp)
  refine ⟨h1, ?_⟩
  rw [h2 0 (by decide)]
  simp [convolutionRef, edgePadded, construct, fillKernel, List.range_succ, PI]
  norm_num

/-- C17: kernel size 1 is the identity and non-positive sizes are clamped to 1.  For every
integer `K ≤ 1` (zero and negative values included) and every input `x`,
`forward x = x`. -/
theorem forward_identity_of_le_one (sinf : ℚ → ℚ) (K : Int) (x : List ℚ) (hK : K ≤ 1) :
    forward (construct sinf K) x = x ∧ (construct sinf K).kernel_size = 1 := by
  rw [construct_of_le sinf K hK]
  refine ⟨?_, rfl⟩
  unfold forward
  rw [if_pos rfl]

/-- Witness for C17: kernel sizes 1, 0 and -3 on `[1, 2, 3]`. -/
theorem forward_identity_of_le_one_witness :
    forward (construct (fun x => x * (4 - x)) 1) [1, 2, 3] = [1, 2, 3] ∧
    forward (construct (fun x => x * (4 - x)) 0) [1, 2, 3] = [1, 2, 3] ∧
    forward (construct (fun x => x * (4 - x)) (-3)) [1, 2, 3] = [1, 2, 3] :=
  ⟨(forward_identity_of_le_one (fun x => x * (4 - x)) 1 [1, 2, 3] (by decide)).1,
    (forward_identity_of_le_one (fun x => x * (4 - x)) 0 [1, 2, 3] (by decide)).1,
    (forward_identity_of_le_one (fun x => x * (4 - x)) (-3) [1, 2, 3] (by decide)).1⟩

/-! ## Kernel size 3 -/

theorem kernel_three (sinf : ℚ → ℚ) :
    (construct sinf 3).kernel =
      [sinf 0 / (sinf 0 + sinf (PI / 2) + sinf PI),
        sinf (PI / 2) / (sinf 0 + sinf (PI / 2) + sinf PI),
        sinf PI / (sinf 0 + sinf (PI / 2) + sinf PI)] ∧
    (construct sinf 3).kernel_size = 3 := by
  have h0 : rawWeight sinf 3 0 = sinf 0 := by
    unfold rawWeight
    congr 1
    norm_num
  have h1 : rawWeight sinf 3 1 = sinf (PI / 2) := by
    unfold rawWeight
    congr 1
    norm_num
  have h2 : rawWeight sinf 3 2 = sinf PI := by
    unfold rawWeight
    congr 1
    norm_num
  rw [construct_of_gt sinf 3 (by decide)]
  refine ⟨?_, rfl⟩
  have hr : List.range (3 : Int).toNat = [0, 1, 2] := by decide
  dsimp only
  rw [hr]
  simp only [List.map_cons, List.map_nil, List.sum_cons, List.sum_nil, h0, h1, h2, add_zero,
    mul_one_div, add_assoc]

theorem padded_three_getD (x : List ℚ) (i : Nat) (hi : i < x.length) :
    (edgePadded 3 x).getD (i + 1) 0 = x.getD i 0 := by
  unfold edgePadded
  have h1 : (((3 : Int) - 1) / 2).toNat = 1 := by decide
  rw [h1, List.replicate_one, List.append_assoc, List.singleton_append, List.getD_cons_succ,
    List.getD_append _ _ _ _ hi]

theorem padded_three_getD_next (x : List ℚ) (i : Nat) (hi : i < x.length) :
    (edgePadded 3 x).getD (i + 2) 0 = x.getD (min (i + 1) (x.length - 1)) 0 := by
  unfold edgePadded
  have h1 : (((3 : Int) - 1) / 2).toNat = 1 := by decide
  have h2 : ((3 : Int) - 1 - (3 - 1) / 2).toNat = 1 := by decide
  rw [h1, h2, List.replicate_one, List.replicate_one, List.append_assoc,
    List.singleton_append, List.getD_cons_succ]
  by_cases hc : i + 1 < x.length
  · rw [List.getD_append _ _ _ _ hc, min_eq_left (by omega)]
  · have he : i + 1 = x.length := by omega
    rw [List.getD_append_right _ _ _ _ (by omega), min_eq_right (by omega), he, Nat.sub_self,
      List.getD_cons_zero, getD_last_eq_getLastD]

theorem kernel_three_of_zero (sinf : ℚ → ℚ) (hzero : sinf 0 = 0) :
    (construct sinf 3).kernel =
      [0, sinf (PI / 2) / (sinf (PI / 2) + sinf PI), sinf PI / (sinf (PI / 2) + sinf PI)] := by
  rw [(kernel_three sinf).1, hzero, zero_add, zero_div]

theorem getD_forward_three (sinf : ℚ → ℚ) (hzero : sinf 0 = 0) (x : List ℚ) (i : Nat)
    (hi : i < x.length) :
    (forward (construct sinf 3) x).getD i 0 =
      sinf (PI / 2) / (sinf (PI / 2) + sinf PI) * x.getD i 0 +
        sinf PI / (sinf (PI / 2) + sinf PI) * x.getD (min (i + 1) (x.length - 1)) 0 := by
  have hks := (kernel_three sinf).2
  have hx : x ≠ [] := by
    intro hnil
    rw [hnil] at hi
    cases hi
  rw [forward_eq_map _ x (by rw [hks]; decide) hx, hks, kernel_three_of_zero sinf hzero,
    getD_map_range _ _ _ hi]
  unfold convolutionRef
  have hr : List.range (3 : Int).toNat = [0, 1, 2] := by decide
  rw [hr]
  simp only [List.map_cons, List.map_nil, List.sum_cons, List.sum_nil,
    List.getD_cons_zero, List.getD_cons_succ, zero_mul, zero_add, add_zero]
  rw [padded_three_getD x i hi, padded_three_getD_next x i hi]

theorem forward_three_moves_step (sinf : ℚ → ℚ) (hzero : sinf 0 = 0)
    (hmid : 0 < sinf (PI / 2)) (hend : 0 < sinf PI) :
    (construct sinf 3).kernel ≠ [0, 1, 0] ∧ forward (construct sinf 3) [0, 1] ≠ [0, 1] := by
  have hb : 0 < sinf PI / (sinf (PI / 2) + sinf PI) := div_pos hend (by linarith)
  constructor
  · rw [kernel_three_of_zero sinf hzero]
    intro hc
    have h2 := congrArg (fun l => l.getD 2 0) hc
    simp only [List.getD_cons_zero, List.getD_cons_succ] at h2
    rw [h2] at hb
    exact lt_irrefl _ hb
  · intro hc
    have h0 := congrArg (fun l => l.getD 0 0) hc
    simp only at h0
    rw [getD_forward_three sinf hzero [0, 1] 0 (by decide)] at h0
    simp only [List.length_cons, List.length_nil, List.getD_cons_zero, mul_zero, zero_add] at h0
    have h1 : ([0, 1] : List ℚ).getD (min (0 + 1) (0 + 1 + 1 - 1)) 0 = 1 := by decide
    rw [h1, mul_one] at h0
    rw [h0] at hb
    exact lt_irrefl _ hb

/-- C23 (counterexample): with a sine that is positive at the constant `PI` of the source,
as the sine is because that decimal lies below π, the normalised kernel for `K = 3` is not
`[0, 1, 0]` and `forward` does not return the input: frame 0 of the step `[0, 1]` takes the
value of the last weight, which is not zero.  Shown first for the parabola `x ↦ x (4 - x)`,
then for every function that vanishes at `0` and is positive at `PI / 2` and at `PI`. -/
theorem forward_kernel_three_not_identity :
    (construct (fun x => x * (4 - x)) 3).kernel ≠ [0, 1, 0] ∧
    forward (construct (fun x => x * (4 - x)) 3) [0, 1] ≠ [0, 1] ∧
    (∀ sinf : ℚ → ℚ, sinf 0 = 0 → 0 < sinf (PI / 2) → 0 < sinf PI →
      (construct sinf 3).kernel ≠ [0, 1, 0] ∧ forward (construct sinf 3) [0, 1] ≠ [0, 1]) := by
  have h := forward_three_moves_step (fun x => x * (4 - x)) (by norm_num)
    (by unfold PI; norm_num) (by unfold PI; norm_num)
  exact ⟨h.1, h.2, fun sinf h0 h1 h2 => forward_three_moves_step sinf h0 h1 h2⟩

/-- C23 (amended): for `K = 3` the first end weight is zero and the last one is positive.
With a sine that vanishes at `0` and is positive at `PI / 2` and at the constant `PI`, the
normalised kernel is `[0, a, b]` with `a = sin(PI/2) / (sin(PI/2) + sin(PI))` and
`b = sin(PI) / (sin(PI/2) + sin(PI))`, where `a + b = 1` and `b > 0`, so it is not
`[0, 1, 0]`; and for every input `x` of length `L` and every `i < L`,
`forward(x)[i] = a * x[i] + b * x[min(i + 1, L - 1)]`. -/
theorem forward_kernel_three (sinf : ℚ → ℚ) (hzero : sinf 0 = 0)
    (hmid : 0 < sinf (PI / 2)) (hend : 0 < sinf PI) :
    (construct sinf 3).kernel =
      [0, sinf (PI / 2) / (sinf (PI / 2) + sinf PI), sinf PI / (sinf (PI / 2) + sinf PI)] ∧
    sinf (PI / 2) / (sinf (PI / 2) + sinf PI) + sinf PI / (sinf (PI / 2) + sinf PI) = 1 ∧
    0 < sinf PI / (sinf (PI / 2) + sinf PI) ∧
    (construct sinf 3).kernel ≠ [0, 1, 0] ∧
    (∀ (x : List ℚ) (i : Nat), i < x.length →
      (forward (construct sinf 3) x).getD i 0 =
        sinf (PI / 2) / (sinf (PI / 2) + sinf PI) * x.getD i 0 +
          sinf PI / (sinf (PI / 2) + sinf PI) * x.getD (min (i + 1) (x.length - 1)) 0) := by
  have hT : 0 < sinf (PI / 2) + sinf PI := by linarith
  refine ⟨kernel_three_of_zero sinf hzero, ?_, div_pos hend hT,
    (forward_three_moves_step sinf hzero hmid hend).1,
    fun x i hi => getD_forward_three sinf hzero x i hi⟩
  rw [← add_div, div_self (ne_of_gt hT)]

/-- Witness for C23 (amended): the parabola `x ↦ x (4 - x)` in place of the sine; frame 0 of
`forward [0, 1]` is the last weight of the kernel, which is positive. -/
theorem forward_kernel_three_witness :
    (construct (fun x => x * (4 - x)) 3).kernel ≠ [0, 1, 0] ∧
    0 < (forward (construct (fun x => x * (4 - x)) 3) [0, 1]).getD 0 0 := by
  have h := forward_kernel_three (fun x => x * (4 - x)) (by norm_num)
    (by unfold PI; norm_num) (by unfold PI; norm_num)
  refine ⟨h.2.2.2.1, ?_⟩
  rw [h.2.2.2.2 [0, 1] 0 (by decide)]
  have h1 : ([0, 1] : List ℚ).getD (min (0 + 1) (([0, 1] : List ℚ).length - 1)) 0 = 1 := by
    decide
  rw [h1, List.getD_cons_zero, mul_zero, zero_add, mul_one]
  exact h.2.2.1

end SinusoidalSmoothing

namespace RealtimePitchProcessor

/-! ## Real-time bridge -/

theorem ready_step (s : RealtimePitchProcessor) (e : Event) :
    (step s e).ready = (s.ready || publishes s e) := by
  cases e with
  | workerDone result =>
    cases result with
    | rendered buffer =>
      simp only [step, computeInBackground, publishes, startComputation]
      cases hc : s.computing <;> cases hx : s.cancelCompute <;> simp
    | failed =>
      simp only [step, computeInBackground, publishes, startComputation]
      cases hc : s.computing <;> cases hx : s.cancelCompute <;> simp
  | invalidate =>
    simp only [step, invalidate, publishes, startComputation]
    cases hc : s.computing <;> simp
  | setProject proj => simp [step, setProject, publishes]
  | setVocoder voc => simp [step, setVocoder, publishes]
  | prepareToPlay sr bs => simp [step, prepareToPlay, publishes]
  | setPosition p => simp [step, setPosition, publishes]

theorem ready_run (s : RealtimePitchProcessor) (events : List Event) :
    (run s events).ready = (s.ready || everPublished s events) := by
  induction events generalizing s with
  | nil => simp [run, everPublished]
  | cons e rest ih =>
    have h := ih (step s e)
    unfold run at h ⊢
    rw [List.foldl_cons, h, ready_step, everPublished, Bool.or_assoc]

/-- C18: passthrough contract of `processBlock`, on the bridge modelled from the
specification.  In every state reached from the initial one by calls and worker completions
among which no buffer was published, `processBlock` returns the input as output and
`false`; in every state reached after a buffer was published it returns `true`. -/
theorem processBlock_passthrough_contract (slice : List ℚ → ℚ → ℚ → Nat → List ℚ)
    (events : List Event) (input : List ℚ) (positionInfo : Option ℚ) :
    (everPublished initial events = false →
      processBlock slice (run initial events) input positionInfo = (input, false)) ∧
    (everPublished initial events = true →
      (processBlock slice (run initial events) input positionInfo).2 = true) := by
  have hr : (run initial events).ready = everPublished initial events := by
    rw [ready_run]
    simp [initial]
  constructor
  · intro h
    unfold processBlock
    rw [hr, h]
    simp
  · intro h
    unfold processBlock
    rw [hr, h]
    simp

/-- Example for C18: before any event, and after `invalidate` with the worker still
rendering, a block passes through; after the worker has published, and after a later
`invalidate`, `processBlock` returns `true`. -/
theorem bridge_passthrough_example (slice : List ℚ → ℚ → ℚ → Nat → List ℚ) :
    processBlock slice (run initial []) [1, 2] none = ([1, 2], false) ∧
    processBlock slice (run initial [Event.invalidate]) [1, 2] none = ([1, 2], false) ∧
    (processBlock slice
      (run initial [Event.invalidate, Event.workerDone (RenderResult.rendered [5, 6, 7])])
      [1, 2] none).2 = true ∧
    (processBlock slice
      (run initial [Event.invalidate, Event.workerDone (RenderResult.rendered [5, 6, 7]),
        Event.invalidate])
      [1, 2] none).2 = true := by
  refine ⟨?_, ?_, ?_, ?_⟩ <;>
    simp [processBlock, run, step, initial, invalidate, startComputation, computeInBackground]

end RealtimePitchProcessor
